import Mathlib

/-!
Shallow embedding of the 8-puzzle solver from `app.py` (board utilities,
heuristics, the A* search `a_star_with_path`, and the state-handling
fragments of the Flask routes that the verified claims refer to), together
with theorems settling the specification claims.

Boards are Python tuples/lists of ints, embedded as `List Int`.  Python's
floor division and modulo on ints are `Int.ediv` / `Int.emod`.  Python
dicts keyed by boards are embedded as association lists with
first-match lookup and an update that replaces the key's binding.
-/

namespace App

abbrev Board := List Int

/-- The target `goal = tuple(range(1, 9)) + (0,)` of `a_star_with_path`. -/
def goal : Board := [1, 2, 3, 4, 5, 6, 7, 8, 0]

/-- The inversion count of `is_solvable`: pairs `i < j` with
`state[i]` and `state[j]` both truthy (nonzero) and `state[i] > state[j]`. -/
def invPairs : List Int → Nat
  | [] => 0
  | x :: xs => xs.countP (fun y => decide (x ≠ 0 ∧ y ≠ 0 ∧ y < x)) + invPairs xs

/-- Embedding of `is_solvable(state)` from `app.py`. -/
def is_solvable (state : List Int) : Bool := invPairs state % 2 == 0

/-- Accumulator form of `h_manhattan`: index `i` runs over the enumeration. -/
def manhattanFrom : Nat → List Int → Int
  | _, [] => 0
  | i, v :: rest =>
      (if v = 0 then 0
       else |(v - 1).ediv 3 - ((i / 3 : Nat) : Int)| +
            |(v - 1).emod 3 - ((i % 3 : Nat) : Int)|)
      + manhattanFrom (i + 1) rest

/-- Embedding of `h_manhattan(s)` from `app.py`. -/
def h_manhattan (s : Board) : Int := manhattanFrom 0 s

/-- Accumulator form of `h_misplaced`. -/
def misplacedFrom : Nat → List Int → Int
  | _, [] => 0
  | i, v :: rest =>
      (if v ≠ 0 ∧ v ≠ (i : Int) + 1 then 1 else 0) + misplacedFrom (i + 1) rest

/-- Embedding of `h_misplaced(s)` from `app.py`. -/
def h_misplaced (s : Board) : Int := misplacedFrom 0 s

/-- Plain inversion count of a line, as in the inner loop of `conflicts`. -/
def inv : List Int → Nat
  | [] => 0
  | x :: xs => xs.countP (fun y => decide (y < x)) + inv xs

/-- Embedding of `conflicts(line)` from `h_linear_conflict`: inversions among the
truthy (nonzero) values of the line. -/
def conflicts (line : List Int) : Nat := inv (line.filter (fun v => v != 0))

/-- The row-`r` line of `h_linear_conflict`:
`[s[r*3 + c] for c in range(3) if (s[r*3 + c] - 1) // 3 == r]`. -/
def rowLine (s : Board) (r : Nat) : List Int :=
  ((List.range 3).filter
      (fun c => (s.getD (r * 3 + c) 0 - 1).ediv 3 == (r : Int))).map
    (fun c => s.getD (r * 3 + c) 0)

/-- The column-`c` line of `h_linear_conflict`:
`[s[r*3 + c] for r in range(3) if (s[r*3 + c] - 1) % 3 == c]`. -/
def colLine (s : Board) (c : Nat) : List Int :=
  ((List.range 3).filter
      (fun r => (s.getD (r * 3 + c) 0 - 1).emod 3 == (c : Int))).map
    (fun r => s.getD (r * 3 + c) 0)

/-- Embedding of `h_linear_conflict(s)` from `app.py`. -/
def h_linear_conflict (s : Board) : Int :=
  h_manhattan s +
    2 * ((((List.range 3).map (fun r => conflicts (rowLine s r))).sum +
          ((List.range 3).map (fun c => conflicts (colLine s c))).sum : Nat) : Int)

/-- Embedding of `HEURISTICS.get(heuristic, h_manhattan)`: the registry lookup with its
silent default. -/
def HEURISTICS_get (heuristic : String) : Board → Int :=
  if heuristic = "manhattan" then h_manhattan
  else if heuristic = "misplaced" then h_misplaced
  else if heuristic = "linear" then h_linear_conflict
  else h_manhattan

/-- Embedding of `itertools.count(start)`: the stream `start, start+1, start+2, ...`. -/
def count (start : Int) : Nat → Int := fun k => start + (k : Int)

/-- Embedding of the builtin `next(iterator)`: the first element of the stream. -/
def next (it : Nat → Int) : Int := it 0

/-- A frontier entry `(f, tie, board)` as pushed by `heappush`. -/
abbrev Entry := Int × Int × Board

/-- Lexicographic `<` on Python tuples of ints of equal length
(restricted to lists; a strict prefix is smaller, as in Python). -/
def listLtInt : List Int → List Int → Bool
  | [], [] => false
  | [], _ :: _ => true
  | _ :: _, [] => false
  | x :: xs, y :: ys =>
      if x < y then true else if y < x then false else listLtInt xs ys

/-- Python's `<` on the 3-tuples pushed into the heap. -/
def entryLt (a b : Entry) : Bool :=
  if a.1 < b.1 then true
  else if b.1 < a.1 then false
  else if a.2.1 < b.2.1 then true
  else if b.2.1 < a.2.1 then false
  else listLtInt a.2.2 b.2.2

/-- The minimal entry of `e :: l` under `entryLt` (leftmost among equals). -/
def selectMin (e : Entry) (l : List Entry) : Entry :=
  l.foldl (fun m x => if entryLt x m then x else m) e

/-- Embedding of `heappop`: remove and return a minimal entry of the heap.  The heap is
kept as the multiset of its entries; `heappop` returns the unique minimal
value under the total tuple order and the remaining multiset. -/
def popMin : List Entry → Option (Entry × List Entry)
  | [] => none
  | e :: rest =>
      let m := selectMin e rest
      some (m, (e :: rest).erase m)

/-- Association-list embedding of a Python dict keyed by boards. -/
abbrev Dict (α : Type) := List (Board × α)

/-- Dict lookup (`d[k]` / `k in d`). -/
def dlookup {α : Type} (d : Dict α) (k : Board) : Option α :=
  (d.find? (fun p => p.1 == k)).map (fun p => p.2)

/-- Dict update `d[k] = v`: replaces the binding of `k`. -/
def dupd {α : Type} (d : Dict α) (k : Board) (v : α) : Dict α :=
  (k, v) :: d.filter (fun p => p.1 != k)

/-- The mutable state of one `a_star_with_path` call: the heap `pq` and the
`parent` and `g` dicts.  (The `f` dict of the source is only ever read back
immediately after each write, so each `f[nxt]` is kept as a local value at
its single use site, the push.) -/
structure AState where
  pq : List Entry
  parent : Dict (Option Board)
  g : Dict Int

/-- Embedding of `cur.index(0)` then `x, y = divmod(zi, 3)` and the four guarded
appends building `nbrs`, in source order. -/
def nbrs (zi : Nat) : List Nat :=
  (if zi / 3 > 0 then [zi - 3] else []) ++
  (if zi / 3 < 2 then [zi + 3] else []) ++
  (if zi % 3 > 0 then [zi - 1] else []) ++
  (if zi % 3 < 2 then [zi + 1] else [])

/-- Embedding of `nxt = list(cur); nxt[zi], nxt[ni] = nxt[ni], nxt[zi]`. -/
def swapAt (s : Board) (zi ni : Nat) : Board :=
  (s.set zi (s.getD ni 0)).set ni (s.getD zi 0)

/-- The body of `for ni in nbrs` in `a_star_with_path`: build the neighbor,
and on `nxt not in g or ng < g[nxt]` record parent and `g` and push
`(f[nxt], next(count()), nxt)`.  (`g[cur]` is total on the states the
search reaches; the `getD 0` default is never exercised there.) -/
def expandOne (h : Board → Int) (cur : Board) (zi : Nat) (st : AState)
    (ni : Nat) : AState :=
  let nxt := swapAt cur zi ni
  let ng := (dlookup st.g cur).getD 0 + 1
  let doUpd := match dlookup st.g nxt with
    | Option.none => true
    | Option.some gv => decide (ng < gv)
  if doUpd then
    { pq := st.pq ++ [(ng + h nxt, next (count 0), nxt)],
      parent := dupd st.parent nxt (some cur),
      g := dupd st.g nxt ng }
  else st

/-- The path-reconstruction loop `while parent[cur] is not None`, with fuel:
the parent chains of the search are acyclic and stay inside the dict, so
fuel `parent.length` always suffices. -/
def chain (parent : Dict (Option Board)) : Nat → Board → List Board
  | 0, _ => []
  | n + 1, cur =>
      match dlookup parent cur with
      | some (some p) => cur :: chain parent n p
      | _ => []

/-- Result of one iteration of the `while pq` loop. -/
inductive StepRes where
  | done : Int × List Board → StepRes
  | cont : AState → StepRes

/-- One iteration of the `while pq` loop of `a_star_with_path`: pop the
minimum, return the reconstructed path on goal, otherwise expand the four
(at most) neighbors in source order. -/
def step (h : Board → Int) (st : AState) : StepRes :=
  match popMin st.pq with
  | none => StepRes.done (-1, [])
  | some (e, rest) =>
      let cur := e.2.2
      if cur = goal then
        let path := (chain st.parent st.parent.length cur).reverse
        StepRes.done ((path.length : Int), path)
      else
        let zi := cur.indexOf 0
        StepRes.cont ((nbrs zi).foldl (expandOne h cur zi) { st with pq := rest })

/-- The `while pq` loop, fuel-indexed: `none` means the fuel ran out before
the loop returned (the loop itself always terminates; see the claims). -/
def runAstar (h : Board → Int) : Nat → AState → Option (Int × List Board)
  | 0, _ => none
  | n + 1, st =>
      match step h st with
      | StepRes.done r => some r
      | StepRes.cont st' => runAstar h n st'

/-- The state after the initialisation lines of `a_star_with_path`:
`parent = {start: None}`, `g = {start: 0}`, `f = {start: h(start)}`, and
the initial `heappush(pq, (f[start], next(count()), start))`. -/
def initState (h : Board → Int) (start : Board) : AState :=
  { pq := [(h start, next (count 0), start)],
    parent := dupd [] start none,
    g := dupd [] start 0 }

/-- Embedding of `a_star_with_path(initial_state, heuristic)` from `app.py`,
fuel-indexed. -/
def a_star_with_path (initial_state : Board) (heuristic : String)
    (fuel : Nat) : Option (Int × List Board) :=
  runAstar (HEURISTICS_get heuristic) fuel
    (initState (HEURISTICS_get heuristic) initial_state)

/-- JSON payloads of the `/minimum-moves` route. -/
inductive MMResult where
  | minimum_moves : Int → String → MMResult
  | error : String → MMResult
deriving DecidableEq

/-- The `minimum_moves` route handler: session state `st`, query parameter
`heuristic`.  `if st and is_solvable(st)` guards the search. -/
def minimum_moves (st : List Int) (heuristic : String) (fuel : Nat) :
    Option MMResult :=
  if st ≠ [] ∧ is_solvable st then
    (a_star_with_path st heuristic fuel).map
      (fun r => MMResult.minimum_moves r.1 heuristic)
  else some (MMResult.error "This puzzle state is not solvable or not started")

/-- JSON payloads of the `/solve` route. -/
inductive SolveResult where
  | solved : Int → List (List Int) → String → SolveResult
  | error : String → SolveResult
deriving DecidableEq

/-- The `solve` route handler. -/
def solve (st : List Int) (heuristic : String) (fuel : Nat) :
    Option SolveResult :=
  if st ≠ [] ∧ is_solvable st then
    (a_star_with_path st heuristic fuel).map
      (fun r => SolveResult.solved r.1 r.2 heuristic)
  else some (SolveResult.error "No solution available")

/-- The shared-link loader inside the GET branch of `home`: for a query
string already parsed into the integers `st` (a failing `int(x)` is
swallowed by the `except` and leaves the session alone), install `st` iff
`len(st) == 9 and is_solvable(st)`; otherwise the session keeps its
previous state `sess`. -/
def load_state (st : List Int) (sess : Option (List Int)) :
    Option (List Int) :=
  if st.length = 9 ∧ is_solvable st then some st else sess

/-- The `/move` route handler on session state `st` and clicked `tile`:
swap iff the tile's cell is at Manhattan distance 1 from the blank. -/
def move_tile (st : List Int) (tile : Int) : List Int :=
  let blank := st.indexOf 0
  let ti := st.indexOf tile
  if (((blank / 3 : Nat) : Int) - ((ti / 3 : Nat) : Int)).natAbs +
     (((blank % 3 : Nat) : Int) - ((ti % 3 : Nat) : Int)).natAbs = 1 then
    swapAt st blank ti
  else st

/-- The sum of the `g`-values currently recorded (clipped at 0; the
values are in fact always non-negative). -/
def gPot (g : Dict Int) : Nat := (g.map (fun p => p.2.toNat)).sum

/-- Termination measure for the `while pq` loop: the heap size plus a
potential that strictly drops with every dict insertion or decrease.
`362880 = 9!` bounds the number of distinct board keys and `362881`
strictly bounds every recorded `g`-value. -/
def astMeasure (st : AState) : Nat :=
  st.pq.length + 2 * (gPot st.g + (362880 - st.g.length) * 362881)

/-- The loop invariant of `a_star_with_path` started on `start`: the `g`
dict has distinct keys, all of them permutations of `start` with the same
solvability parity; `g`-values are non-negative and bounded by the number
of keys; `start` is the unique root of the `parent` forest; and every
frontier board is recorded in both dicts. -/
structure Inv (start : Board) (st : AState) : Prop where
  gkeys_nodup : (st.g.map Prod.fst).Nodup
  parent_start : dlookup st.parent start = some none
  parent_none : ∀ b, dlookup st.parent b = some none → b = start
  g_start : dlookup st.g start = some 0
  g_bound : ∀ b v, dlookup st.g b = some v → 0 ≤ v ∧ v < (st.g.length : Int)
  g_perm : ∀ b, (dlookup st.g b).isSome = true → b.Perm start
  g_parity : ∀ b, (dlookup st.g b).isSome = true → is_solvable b = is_solvable start
  pq_g : ∀ e ∈ st.pq, (dlookup st.g e.2.2).isSome = true
  pq_parent : ∀ e ∈ st.pq, (dlookup st.parent e.2.2).isSome = true

/-- A well-formed board in the sense of the specification's `parse`:
length 9, every value in 0–8, no value repeated. -/
def wellFormedBoard (st : List Int) : Prop :=
  st.length = 9 ∧ (∀ v ∈ st, 0 ≤ v ∧ v ≤ 8) ∧ st.Nodup

/-- The identity board; "a permutation of 0–8" means `Perm std`. -/
def std : Board := [0, 1, 2, 3, 4, 5, 6, 7, 8]

/-- Cross inversions between two segments: pairs `(x, y)` with `x` taken
from the first list, `y` from the second, and `y < x`. -/
def cross (xs ys : List Int) : Nat :=
  (xs.map (fun x => ys.countP (fun y => decide (y < x)))).sum

/-- Projection of a `StepRes` expected to continue. -/
def contState : StepRes → AState
  | StepRes.cont s => s
  | StepRes.done _ => { pq := [], parent := [], g := [] }

/-- Predicate: `b` is one of the boards `a_star_with_path` generates from `a`: the
blank is swapped with one of the neighbor cells of `nbrs`. -/
def moveStepB (a b : Board) : Bool :=
  (nbrs (a.indexOf 0)).any (fun ni => swapAt a (a.indexOf 0) ni == b)

/-- Consecutive boards of the list are single legal tile slides. -/
def IsMoveList : List Board → Bool
  | [] => true
  | [_] => true
  | a :: b :: rest => moveStepB a b && IsMoveList (b :: rest)

/-- A 28-move solution of `[8,5,7,6,0,4,3,2,1]` (found by breadth-first
search); each consecutive pair is a legal slide. -/
def c1Path28 : List Board :=
  [[8,5,7,6,0,4,3,2,1], [8,0,7,6,5,4,3,2,1], [8,7,0,6,5,4,3,2,1],
   [8,7,4,6,5,0,3,2,1], [8,7,4,6,5,1,3,2,0], [8,7,4,6,5,1,3,0,2],
   [8,7,4,6,5,1,0,3,2], [8,7,4,0,5,1,6,3,2], [0,7,4,8,5,1,6,3,2],
   [7,0,4,8,5,1,6,3,2], [7,4,0,8,5,1,6,3,2], [7,4,1,8,5,0,6,3,2],
   [7,4,1,8,5,2,6,3,0], [7,4,1,8,5,2,6,0,3], [7,4,1,8,5,2,0,6,3],
   [7,4,1,0,5,2,8,6,3], [0,4,1,7,5,2,8,6,3], [4,0,1,7,5,2,8,6,3],
   [4,1,0,7,5,2,8,6,3], [4,1,2,7,5,0,8,6,3], [4,1,2,7,5,3,8,6,0],
   [4,1,2,7,5,3,8,0,6], [4,1,2,7,5,3,0,8,6], [4,1,2,0,5,3,7,8,6],
   [0,1,2,4,5,3,7,8,6], [1,0,2,4,5,3,7,8,6], [1,2,0,4,5,3,7,8,6],
   [1,2,3,4,5,0,7,8,6], [1,2,3,4,5,6,7,8,0]]

/-- A 26-move solution of `[3,8,1,6,5,4,0,2,7]` (found by breadth-first
search); `h_linear_conflict` scores this board 28, an overestimate. -/
def c1Path26 : List Board :=
  [[3,8,1,6,5,4,0,2,7], [3,8,1,6,5,4,2,0,7], [3,8,1,6,5,4,2,7,0],
   [3,8,1,6,5,0,2,7,4], [3,8,1,6,0,5,2,7,4], [3,8,1,0,6,5,2,7,4],
   [3,8,1,2,6,5,0,7,4], [3,8,1,2,6,5,7,0,4], [3,8,1,2,0,5,7,6,4],
   [3,0,1,2,8,5,7,6,4], [3,1,0,2,8,5,7,6,4], [3,1,5,2,8,0,7,6,4],
   [3,1,5,2,8,4,7,6,0], [3,1,5,2,8,4,7,0,6], [3,1,5,2,0,4,7,8,6],
   [3,0,5,2,1,4,7,8,6], [0,3,5,2,1,4,7,8,6], [2,3,5,0,1,4,7,8,6],
   [2,3,5,1,0,4,7,8,6], [2,3,5,1,4,0,7,8,6], [2,3,0,1,4,5,7,8,6],
   [2,0,3,1,4,5,7,8,6], [0,2,3,1,4,5,7,8,6], [1,2,3,0,4,5,7,8,6],
   [1,2,3,4,0,5,7,8,6], [1,2,3,4,5,0,7,8,6], [1,2,3,4,5,6,7,8,0]]

/-! ## Dict lemmas -/

theorem dlookup_dupd_self {α : Type} (d : Dict α) (k : Board) (v : α) :
    dlookup (dupd d k v) k = some v := by
  unfold dlookup dupd
  rw [List.find?_cons_of_pos _ (by simp)]
  rfl

theorem find?_filter_ne {α : Type} (d : Dict α) (k k' : Board) (hne : k' ≠ k) :
    (d.filter (fun p => p.1 != k)).find? (fun p => p.1 == k') =
      d.find? (fun p => p.1 == k') := by
  induction d with
  | nil => rfl
  | cons a d ih =>
      by_cases hak : a.1 = k
      · have hm : (a.1 == k') = false := by
          rw [hak]
          exact beq_eq_false_iff_ne.mpr fun h => hne h.symm
        rw [List.filter_cons_of_neg (by simp [hak]),
          List.find?_cons_of_neg _ (by simp [hm]), ih]
      · rw [List.filter_cons_of_pos (by simp [hak])]
        by_cases hak' : a.1 = k'
        · rw [List.find?_cons_of_pos _ (by simp [hak']),
            List.find?_cons_of_pos _ (by simp [hak'])]
        · rw [List.find?_cons_of_neg _ (by simp [hak']),
            List.find?_cons_of_neg _ (by simp [hak']), ih]

theorem dlookup_dupd_ne {α : Type} (d : Dict α) (k k' : Board) (v : α)
    (hne : k' ≠ k) : dlookup (dupd d k v) k' = dlookup d k' := by
  unfold dlookup dupd
  rw [List.find?_cons_of_neg _ (by
    simp only [decide_eq_true_eq]
    exact beq_eq_false_iff_ne.mpr (fun h => hne h.symm) ▸ (by simp)), ]
  rw [find?_filter_ne d k k' hne]

theorem filter_ne_eq_self_of_none {α : Type} (d : Dict α) (k : Board)
    (h : dlookup d k = none) : d.filter (fun p => p.1 != k) = d := by
  apply List.filter_eq_self.mpr
  intro p hp
  have hf : d.find? (fun q => q.1 == k) = none := by
    cases hq : d.find? (fun q => q.1 == k) with
    | none => rfl
    | some q => unfold dlookup at h; rw [hq] at h; simp at h
  have := List.find?_eq_none.mp hf p hp
  simpa using this

theorem dupd_length_of_none {α : Type} (d : Dict α) (k : Board) (v : α)
    (h : dlookup d k = none) : (dupd d k v).length = d.length + 1 := by
  unfold dupd
  rw [List.length_cons, filter_ne_eq_self_of_none d k h]

theorem dupd_length_of_some {α : Type} (d : Dict α) (k : Board) (v : α)
    (hnd : (d.map Prod.fst).Nodup) (h : (dlookup d k).isSome = true) :
    (dupd d k v).length = d.length := by
  induction d with
  | nil => simp [dlookup] at h
  | cons a d ih =>
      rw [List.map_cons, List.nodup_cons] at hnd
      by_cases hak : a.1 = k
      · have hdk : ∀ p ∈ d, (p.1 != k) = true := by
          intro p hp
          have hpm : p.1 ∈ d.map Prod.fst := List.mem_map_of_mem Prod.fst hp
          have hpa : p.1 ≠ a.1 := fun hh => hnd.1 (hh ▸ hpm)
          simp [hak ▸ hpa]
        unfold dupd
        rw [List.filter_cons_of_neg (by simp [hak]),
          List.filter_eq_self.mpr hdk, List.length_cons, List.length_cons]
      · have hlook : (dlookup d k).isSome = true := by
          unfold dlookup at h ⊢
          rw [List.find?_cons_of_neg _ (by simp [hak])] at h
          exact h
        have hih := ih hnd.2 hlook
        unfold dupd at hih ⊢
        rw [List.filter_cons_of_pos (by simp [hak])]
        simp only [List.length_cons] at hih ⊢
        omega

theorem gPot_dupd_of_none (d : Dict Int) (k : Board) (v : Int)
    (h : dlookup d k = none) : gPot (dupd d k v) = v.toNat + gPot d := by
  unfold gPot dupd
  rw [filter_ne_eq_self_of_none d k h, List.map_cons, List.sum_cons]

theorem gPot_dupd_of_some (d : Dict Int) (k : Board) (v w : Int)
    (hnd : (d.map Prod.fst).Nodup) (h : dlookup d k = some w) :
    gPot (dupd d k v) + w.toNat = v.toNat + gPot d := by
  induction d with
  | nil => simp [dlookup] at h
  | cons a d ih =>
      rw [List.map_cons, List.nodup_cons] at hnd
      by_cases hak : a.1 = k
      · have hw : a.2 = w := by
          unfold dlookup at h
          rw [List.find?_cons_of_pos _ (by simp [hak])] at h
          simpa using h
        have hdk : ∀ p ∈ d, (p.1 != k) = true := by
          intro p hp
          have hpm : p.1 ∈ d.map Prod.fst := List.mem_map_of_mem Prod.fst hp
          have hpa : p.1 ≠ a.1 := fun hh => hnd.1 (hh ▸ hpm)
          simp [hak ▸ hpa]
        unfold gPot dupd
        rw [List.filter_cons_of_neg (by simp [hak]),
          List.filter_eq_self.mpr hdk, List.map_cons, List.sum_cons,
          List.map_cons, List.sum_cons, hw]
        omega
      · have hlook : dlookup d k = some w := by
          unfold dlookup at h ⊢
          rw [List.find?_cons_of_neg _ (by simp [hak])] at h
          exact h
        have hih := ih hnd.2 hlook
        unfold gPot dupd at hih ⊢
        rw [List.filter_cons_of_pos (by simp [hak])]
        simp only [List.map_cons, List.sum_cons] at hih ⊢
        omega

theorem dupd_keys_nodup {α : Type} (d : Dict α) (k : Board) (v : α)
    (h : (d.map Prod.fst).Nodup) : ((dupd d k v).map Prod.fst).Nodup := by
  unfold dupd
  rw [List.map_cons]
  refine List.nodup_cons.mpr ⟨?_, ?_⟩
  · intro hk
    rw [List.mem_map] at hk
    obtain ⟨p, hp, hpk⟩ := hk
    have hmem := List.of_mem_filter hp
    rw [hpk] at hmem
    simp at hmem
  · exact ((List.filter_sublist d).map Prod.fst).nodup h

theorem dlookup_dupd_isSome {α : Type} (d : Dict α) (k b : Board) (v : α)
    (h : (dlookup d b).isSome = true) :
    (dlookup (dupd d k v) b).isSome = true := by
  by_cases hbk : b = k
  · rw [hbk, dlookup_dupd_self]; rfl
  · rw [dlookup_dupd_ne d k b v hbk]; exact h

theorem dlookup_isSome_of_mem_keys {α : Type} (d : Dict α) (b : Board)
    (h : b ∈ d.map Prod.fst) : (dlookup d b).isSome = true := by
  induction d with
  | nil => simp at h
  | cons a d ih =>
      rw [List.map_cons, List.mem_cons] at h
      unfold dlookup
      by_cases hab : a.1 = b
      · rw [List.find?_cons_of_pos _ (by simp [hab])]; rfl
      · rw [List.find?_cons_of_neg _ (by simp [hab])]
        rcases h with h1 | h2
        · exact absurd h1.symm hab
        · exact ih h2

theorem dlookup_isSome_length_pos {α : Type} (d : Dict α) (b : Board)
    (h : (dlookup d b).isSome = true) : 0 < d.length := by
  cases d with
  | nil => simp [dlookup] at h
  | cons a d => simp

/-! ## Basic lemmas -/

theorem runAstar_succ_of_some {h : Board → Int} :
    ∀ {n : Nat} {st : AState} {r}, runAstar h n st = some r →
      runAstar h (n + 1) st = some r := by
  intro n
  induction n with
  | zero => intro st r hr; simp [runAstar] at hr
  | succ k ih =>
      intro st r hr
      rw [runAstar] at hr
      rw [runAstar]
      cases hs : step h st with
      | done v => rw [hs] at hr; exact hr
      | cont st' => rw [hs] at hr; exact ih hr

theorem runAstar_mono {h : Board → Int} {n m : Nat} {st : AState} {r}
    (hnm : n ≤ m) (hr : runAstar h n st = some r) :
    runAstar h m st = some r := by
  induction m with
  | zero =>
      have hn0 : n = 0 := Nat.le_zero.mp hnm
      rw [hn0] at hr; exact hr
  | succ k ih =>
      rcases Nat.lt_or_ge n (k + 1) with hlt | hge
      · exact runAstar_succ_of_some (ih (Nat.lt_succ_iff.mp hlt))
      · have hn : n = k + 1 := Nat.le_antisymm hnm hge
        rw [hn] at hr; exact hr

/-! ## C7: linear conflict dominates Manhattan -/

/-- C7: for every board that is a permutation of 0–8,
`h_linear_conflict` is at least `h_manhattan` (it adds a non-negative
penalty to the Manhattan term). -/
theorem C7_linear_dominates_manhattan (s : Board) (hs : s.Perm std) :
    h_manhattan s ≤ h_linear_conflict s := by
  unfold h_linear_conflict
  have : (0 : Int) ≤ 2 * ((((List.range 3).map (fun r => conflicts (rowLine s r))).sum +
      ((List.range 3).map (fun c => conflicts (colLine s c))).sum : Nat) : Int) := by
    positivity
  omega

theorem C7_witness :
    ([2,1,3,4,5,6,7,8,0] : Board).Perm std ∧
      h_manhattan [2,1,3,4,5,6,7,8,0] ≤ h_linear_conflict [2,1,3,4,5,6,7,8,0] :=
  ⟨by decide, C7_linear_dominates_manhattan [2,1,3,4,5,6,7,8,0] (by decide)⟩

/-! ## C8: unknown heuristic names fall back to manhattan -/

/-- C8: for every heuristic selector not among the registry's three names,
`a_star_with_path` computes exactly what it computes for `"manhattan"`
(the embedding is total, so no exception is modelled or needed). -/
theorem C8_unknown_heuristic_defaults (s : Board) (heuristic : String)
    (fuel : Nat) (hn : heuristic ∉ (["manhattan", "misplaced", "linear"] : List String)) :
    a_star_with_path s heuristic fuel = a_star_with_path s "manhattan" fuel := by
  simp only [List.mem_cons, List.not_mem_nil, or_false, not_or] at hn
  obtain ⟨h1, h2, h3⟩ := hn
  simp [a_star_with_path, HEURISTICS_get, h1, h2, h3]

theorem C8_witness :
    ("chebyshev" : String) ∉ (["manhattan", "misplaced", "linear"] : List String) ∧
      a_star_with_path goal "chebyshev" 3 = a_star_with_path goal "manhattan" 3 :=
  ⟨by decide, C8_unknown_heuristic_defaults goal "chebyshev" 3 (by decide)⟩

/-! ## C2: the shared-link loader's validation -/

/-- C2 counterexample: the board `[1,…,8,9]` is malformed (the value 9 is
out of range and there is no blank), yet the shared-link loader installs
it as the session state, because the loader checks only length and
inversion parity. -/
theorem C2_counterexample :
    load_state [1,2,3,4,5,6,7,8,9] none = some [1,2,3,4,5,6,7,8,9] ∧
      ¬ wellFormedBoard [1,2,3,4,5,6,7,8,9] := by
  constructor
  · decide
  · intro hwf
    have := hwf.2.1 9 (by decide)
    omega

/-- C2 amended: the loader rejects (leaves the session untouched) exactly
the sequences failing its actual check — wrong length or odd inversion
parity; out-of-range or duplicate values are not checked, so some
malformed sequences are installed. -/
theorem C2_amended_loader_check (st : List Int) (sess : Option (List Int))
    (hbad : st.length ≠ 9 ∨ is_solvable st = false) :
    load_state st sess = sess := by
  unfold load_state
  rcases hbad with hlen | hpar
  · simp [hlen]
  · simp [hpar]

theorem C2_witness :
    (([1,2,3,4,5,6,7,8] : List Int).length ≠ 9 ∨
        is_solvable [1,2,3,4,5,6,7,8] = false) ∧
      load_state [1,2,3,4,5,6,7,8] (some goal) = some goal :=
  ⟨by decide, C2_amended_loader_check [1,2,3,4,5,6,7,8] (some goal) (by decide)⟩

/-! ## C5: unsolvable boards are rejected before searching -/

/-- C5 counterexample: the spec's example board `[1,2,3,4,5,6,0,7,8]` has
an even inversion count (zero), so the code treats it as solvable and the
`/minimum-moves` route answers 2 instead of the Unsolvable error. -/
theorem C5_counterexample :
    is_solvable [1,2,3,4,5,6,0,7,8] = true ∧
      minimum_moves [1,2,3,4,5,6,0,7,8] "manhattan" 10 =
        some (MMResult.minimum_moves 2 "manhattan") := by
  constructor
  · decide
  · decide

/-- C5 amended: for every well-formed board with odd non-blank inversion
count, `/minimum-moves` and `/solve` report their error outcome, and do so
for every fuel, in particular fuel 0 — no search step is taken.  (The
claim's example board must instead be one with odd inversions, such as
`[1,2,3,4,5,6,0,8,7]`.) -/
theorem C5_amended_unsolvable_rejected (st : List Int) (heuristic : String)
    (fuel : Nat) (hwf : wellFormedBoard st) (hodd : is_solvable st = false) :
    minimum_moves st heuristic fuel =
        some (MMResult.error "This puzzle state is not solvable or not started") ∧
      solve st heuristic fuel = some (SolveResult.error "No solution available") := by
  have hne : st ≠ [] := by
    intro h
    rw [h] at hwf
    exact absurd hwf.1 (by decide)
  constructor
  · unfold minimum_moves
    simp [hodd]
  · unfold solve
    simp [hodd]

theorem C5_witness :
    (wellFormedBoard [1,2,3,4,5,6,0,8,7] ∧ is_solvable [1,2,3,4,5,6,0,8,7] = false) ∧
      minimum_moves [1,2,3,4,5,6,0,8,7] "linear" 0 =
        some (MMResult.error "This puzzle state is not solvable or not started") ∧
      solve [1,2,3,4,5,6,0,8,7] "linear" 0 =
        some (SolveResult.error "No solution available") :=
  ⟨⟨⟨by decide, by decide, by decide⟩, by decide⟩,
    C5_amended_unsolvable_rejected [1,2,3,4,5,6,0,8,7] "linear" 0
      ⟨by decide, by decide, by decide⟩ (by decide)⟩

/-! ## C4: determinism of `a_star_with_path` -/

/-- C4: the search is a pure function of its inputs: any two calls that
complete (for any fuel values) return the identical move count and the
identical path. -/
theorem C4_deterministic (init : Board) (heuristic : String)
    (n₁ n₂ : Nat) (r₁ r₂ : Int × List Board)
    (h₁ : a_star_with_path init heuristic n₁ = some r₁)
    (h₂ : a_star_with_path init heuristic n₂ = some r₂) : r₁ = r₂ := by
  unfold a_star_with_path at h₁ h₂
  rcases Nat.le_total n₁ n₂ with hle | hle
  · exact Option.some_injective _ ((runAstar_mono hle h₁).symm.trans h₂)
  · exact (Option.some_injective _ ((runAstar_mono hle h₂).symm.trans h₁)).symm

theorem C4_witness :
    a_star_with_path goal "manhattan" 1 = some (0, []) ∧
      a_star_with_path goal "manhattan" 2 = some (0, []) ∧
      ((0 : Int), ([] : List Board)) = ((0 : Int), ([] : List Board)) :=
  ⟨by decide, by decide,
    C4_deterministic goal "manhattan" 1 2 (0, []) (0, []) (by decide) (by decide)⟩

/-! ## C1: the failing input of the linear-conflict search -/

/-- C1 (code bug evidence): the board `[8,5,7,6,0,4,3,2,1]` has an explicit
28-move solution (so its true shortest-path distance is at most 28), while
`a_star_with_path` under `"linear"` reports 30 on it; and the coded
heuristic overestimates: `h_linear_conflict [3,8,1,6,5,4,0,2,7] = 28`
although that board has an explicit 26-move solution.  The root cause is
that `conflicts` counts every inversion inside a line instead of the
linear-conflict bound, making the heuristic inadmissible. -/
theorem C1_failing_input_evidence :
    (IsMoveList c1Path28 = true ∧ c1Path28.head? = some [8,5,7,6,0,4,3,2,1] ∧
      c1Path28.getLast? = some goal ∧ c1Path28.length = 28 + 1) ∧
    (IsMoveList c1Path26 = true ∧ c1Path26.head? = some [3,8,1,6,5,4,0,2,7] ∧
      c1Path26.getLast? = some goal ∧ c1Path26.length = 26 + 1 ∧
      h_linear_conflict [3,8,1,6,5,4,0,2,7] = 28) := by
  constructor
  · exact ⟨by decide, by decide, by decide, by decide⟩
  · exact ⟨by decide, by decide, by decide, by decide, by decide⟩

/-! ## Order lemmas for the heap comparison -/

theorem listLtInt_irrefl : ∀ l : List Int, listLtInt l l = false := by
  intro l
  induction l with
  | nil => rfl
  | cons x xs ih => simp [listLtInt, ih]

theorem listLtInt_asymm : ∀ (a b : List Int),
    listLtInt a b = true → listLtInt b a = false := by
  intro a
  induction a with
  | nil =>
      intro b hb
      cases b with
      | nil => simpa [listLtInt] using hb
      | cons y ys => rfl
  | cons x xs ih =>
      intro b hb
      cases b with
      | nil => simp [listLtInt] at hb
      | cons y ys =>
          rw [listLtInt] at hb ⊢
          by_cases hxy : x < y
          · rw [if_neg (by omega : ¬ y < x), if_pos hxy]
          · rw [if_neg hxy] at hb
            by_cases hyx : y < x
            · rw [if_pos hyx] at hb; exact absurd hb (by simp)
            · rw [if_neg hyx] at hb
              rw [if_neg hyx, if_neg hxy]
              exact ih ys hb

theorem listLtInt_neg_trans : ∀ (a b c : List Int),
    listLtInt a b = false → listLtInt b c = false → listLtInt a c = false := by
  intro a
  induction a with
  | nil =>
      intro b c hab hbc
      cases b with
      | nil =>
          cases c with
          | nil => rfl
          | cons z zs => simp [listLtInt] at hbc
      | cons y ys => simp [listLtInt] at hab
  | cons x xs ih =>
      intro b c hab hbc
      cases c with
      | nil => rfl
      | cons z zs =>
          cases b with
          | nil => simp [listLtInt] at hbc
          | cons y ys =>
              rw [listLtInt] at hab hbc ⊢
              by_cases hxy : x < y
              · rw [if_pos hxy] at hab; exact absurd hab (by simp)
              · rw [if_neg hxy] at hab
                by_cases hyz : y < z
                · rw [if_pos hyz] at hbc; exact absurd hbc (by simp)
                · rw [if_neg hyz] at hbc
                  rw [if_neg (by omega : ¬ x < z)]
                  by_cases hzx : z < x
                  · rw [if_pos hzx]
                  · rw [if_neg hzx]
                    by_cases hyx : y < x
                    · exfalso; omega
                    · rw [if_neg hyx] at hab
                      by_cases hzy : z < y
                      · exfalso; omega
                      · rw [if_neg hzy] at hbc
                        exact ih ys zs hab hbc

theorem entryLt_irrefl (e : Entry) : entryLt e e = false := by
  simp [entryLt, listLtInt_irrefl]

theorem entryLt_asymm {a b : Entry} (h : entryLt a b = true) :
    entryLt b a = false := by
  rw [entryLt] at h ⊢
  by_cases h1 : a.1 < b.1
  · rw [if_neg (by omega : ¬ b.1 < a.1), if_pos h1]
  · rw [if_neg h1] at h
    by_cases h2 : b.1 < a.1
    · rw [if_pos h2] at h; exact absurd h (by simp)
    · rw [if_neg h2] at h
      rw [if_neg h2, if_neg h1]
      by_cases h3 : a.2.1 < b.2.1
      · rw [if_neg (by omega : ¬ b.2.1 < a.2.1), if_pos h3]
      · rw [if_neg h3] at h
        by_cases h4 : b.2.1 < a.2.1
        · rw [if_pos h4] at h; exact absurd h (by simp)
        · rw [if_neg h4] at h
          rw [if_neg h4, if_neg h3]
          exact listLtInt_asymm _ _ h

theorem entryLt_neg_trans {a b c : Entry} (hab : entryLt a b = false)
    (hbc : entryLt b c = false) : entryLt a c = false := by
  rw [entryLt] at hab hbc ⊢
  by_cases hxy : a.1 < b.1
  · rw [if_pos hxy] at hab; exact absurd hab (by simp)
  · rw [if_neg hxy] at hab
    by_cases hyz : b.1 < c.1
    · rw [if_pos hyz] at hbc; exact absurd hbc (by simp)
    · rw [if_neg hyz] at hbc
      rw [if_neg (by omega : ¬ a.1 < c.1)]
      by_cases hzx : c.1 < a.1
      · rw [if_pos hzx]
      · rw [if_neg hzx]
        by_cases hyx : b.1 < a.1
        · exfalso; omega
        · rw [if_neg hyx] at hab
          by_cases hzy : c.1 < b.1
          · exfalso; omega
          · rw [if_neg hzy] at hbc
            by_cases t1 : a.2.1 < b.2.1
            · rw [if_pos t1] at hab; exact absurd hab (by simp)
            · rw [if_neg t1] at hab
              by_cases t2 : b.2.1 < c.2.1
              · rw [if_pos t2] at hbc; exact absurd hbc (by simp)
              · rw [if_neg t2] at hbc
                rw [if_neg (by omega : ¬ a.2.1 < c.2.1)]
                by_cases t3 : c.2.1 < a.2.1
                · rw [if_pos t3]
                · rw [if_neg t3]
                  by_cases t4 : b.2.1 < a.2.1
                  · exfalso; omega
                  · rw [if_neg t4] at hab
                    by_cases t5 : c.2.1 < b.2.1
                    · exfalso; omega
                    · rw [if_neg t5] at hbc
                      exact listLtInt_neg_trans _ _ _ hab hbc

/-! ## `selectMin` and `popMin` -/

theorem selectMin_mem : ∀ (l : List Entry) (e : Entry), selectMin e l ∈ e :: l := by
  intro l
  induction l with
  | nil => intro e; simp [selectMin]
  | cons y ys ih =>
      intro e
      have h := ih (if entryLt y e then y else e)
      rcases List.mem_cons.mp h with h1 | h2
      · show selectMin (if entryLt y e then y else e) ys ∈ _
        rw [h1]
        by_cases hc : entryLt y e
        · simp [hc]
        · simp [hc]
      · show selectMin (if entryLt y e then y else e) ys ∈ _
        simp [List.mem_cons.mpr (Or.inr h2)]

theorem selectMin_not_lt : ∀ (l : List Entry) (e x : Entry), x ∈ e :: l →
    entryLt x (selectMin e l) = false := by
  intro l
  induction l with
  | nil =>
      intro e x hx
      have : x = e := by simpa using hx
      rw [this]
      exact entryLt_irrefl e
  | cons y ys ih =>
      intro e x hx
      show entryLt x (selectMin (if entryLt y e then y else e) ys) = false
      by_cases hc : entryLt y e
      · rw [if_pos hc]
        rcases List.mem_cons.mp hx with h1 | h2
        · have hey : entryLt e y = false := entryLt_asymm hc
          have hym : entryLt y (selectMin y ys) = false :=
            ih y y (List.mem_cons_self y ys)
          rw [h1]
          exact entryLt_neg_trans hey hym
        · exact ih y x h2
      · rw [if_neg hc]
        rcases List.mem_cons.mp hx with h1 | h2
        · exact ih e x (h1 ▸ List.mem_cons_self e ys)
        · rcases List.mem_cons.mp h2 with h3 | h4
          · have hye : entryLt y e = false := by simpa using hc
            have hem : entryLt e (selectMin e ys) = false :=
              ih e e (List.mem_cons_self e ys)
            rw [h3]
            exact entryLt_neg_trans hye hem
          · exact ih e x (List.mem_cons.mpr (Or.inr h4))

theorem popMin_eq_none {pq : List Entry} : popMin pq = none ↔ pq = [] := by
  cases pq with
  | nil => simp [popMin]
  | cons e rest => simp [popMin]

theorem popMin_some_mem {pq : List Entry} {e : Entry} {rest : List Entry}
    (h : popMin pq = some (e, rest)) : e ∈ pq := by
  cases pq with
  | nil => simp [popMin] at h
  | cons p ps =>
      rw [popMin] at h
      simp only [Option.some.injEq, Prod.mk.injEq] at h
      rw [← h.1]
      exact selectMin_mem ps p

theorem popMin_some_rest {pq : List Entry} {e : Entry} {rest : List Entry}
    (h : popMin pq = some (e, rest)) : rest = pq.erase e := by
  cases pq with
  | nil => simp [popMin] at h
  | cons p ps =>
      rw [popMin] at h
      simp only [Option.some.injEq, Prod.mk.injEq] at h
      rw [← h.2, ← h.1]

theorem popMin_some_min {pq : List Entry} {e : Entry} {rest : List Entry}
    (h : popMin pq = some (e, rest)) : ∀ x ∈ pq, entryLt x e = false := by
  cases pq with
  | nil => simp [popMin] at h
  | cons p ps =>
      rw [popMin] at h
      simp only [Option.some.injEq, Prod.mk.injEq] at h
      intro x hx
      rw [← h.1]
      exact selectMin_not_lt ps p x hx

/-! ## C3: the tie-break field and the pop order -/

/-- C3 counterexample: expanding the start board `[0,1,2,…,8]` pushes two
entries (the second and third pushes of the run, after the initial one);
both carry `f = 12` and tie-break field `0` — not their insertion sequence
numbers — and the next pop expands the *later*-pushed board
`[1,0,2,3,4,5,6,7,8]`, not the earlier `[3,1,2,0,4,5,6,7,8]`, because with
all tie fields `0` the tuple comparison falls through to the board. -/
theorem C3_counterexample :
    (contState (step h_manhattan (initState h_manhattan [0,1,2,3,4,5,6,7,8]))).pq.map
        (fun e => (e.1, e.2.1, e.2.2)) =
      [(12, 0, [3,1,2,0,4,5,6,7,8]), (12, 0, [1,0,2,3,4,5,6,7,8])] ∧
    (popMin (contState (step h_manhattan
        (initState h_manhattan [0,1,2,3,4,5,6,7,8]))).pq).map
        (fun p => p.1.2.2) = some [1,0,2,3,4,5,6,7,8] :=
  ⟨by decide, by decide⟩

/-- C3 amended: every entry ever pushed carries tie-break field 0 (each
`next(count())` builds a fresh counter and yields 0), so the field does not
record insertion order; among entries with equal `f` the one with the
lexicographically least board is popped first — deterministic, but not
first-in-first-out. -/
theorem C3_amended_tie_zero_lex_order :
    (∀ (hfun : Board → Int) (b : Board), ∀ e ∈ (initState hfun b).pq, e.2.1 = 0) ∧
    (∀ (hfun : Board → Int) (st : AState) (st' : AState),
        (∀ e ∈ st.pq, e.2.1 = 0) → step hfun st = StepRes.cont st' →
        ∀ e ∈ st'.pq, e.2.1 = 0) ∧
    (∀ (pq : List Entry) (e : Entry) (rest : List Entry),
        (∀ x ∈ pq, x.2.1 = 0) → popMin pq = some (e, rest) →
        ∀ x ∈ pq, e.1 < x.1 ∨ (e.1 = x.1 ∧ listLtInt x.2.2 e.2.2 = false)) := by
  refine ⟨?_, ?_, ?_⟩
  · intro hfun b e he
    simp [initState] at he
    rw [he]
    rfl
  · intro hfun st st' htie hstep e he
    rw [step] at hstep
    cases hpop : popMin st.pq with
    | none => rw [hpop] at hstep; exact absurd hstep (by simp)
    | some pr =>
        rw [hpop] at hstep
        by_cases hg : pr.1.2.2 = goal
        · simp only [hg, if_pos rfl] at hstep
          exact absurd hstep (by simp)
        · simp only [if_neg hg] at hstep
          have hst' := (StepRes.cont.injEq _ _).mp hstep
          rw [← hst'] at he
          -- entries of the folded state are either inherited from the rest
          -- of the popped heap or pushed with tie `next (count 0) = 0`
          have key : ∀ (l : List Nat) (s : AState), (∀ x ∈ s.pq, x.2.1 = 0) →
              ∀ x ∈ (l.foldl (expandOne hfun pr.1.2.2 (pr.1.2.2.indexOf 0)) s).pq,
                x.2.1 = 0 := by
            intro l
            induction l with
            | nil => intro s hs; exact hs
            | cons n ns ih =>
                intro s hs
                apply ih
                intro x hx
                rw [expandOne] at hx
                by_cases hupd : (match dlookup s.g (swapAt pr.1.2.2 (pr.1.2.2.indexOf 0) n) with
                    | Option.none => true
                    | Option.some gv =>
                        decide ((dlookup s.g pr.1.2.2).getD 0 + 1 < gv)) = true
                · rw [if_pos hupd] at hx
                  simp only [List.mem_append, List.mem_singleton] at hx
                  rcases hx with hx1 | hx2
                  · exact hs x hx1
                  · rw [hx2]; rfl
                · rw [if_neg hupd] at hx
                  exact hs x hx
          have hr2 : pr.2 = st.pq.erase pr.1 :=
            popMin_some_rest (show popMin st.pq = some (pr.1, pr.2) by rw [hpop])
          have hsrest : ∀ x ∈ pr.2, x.2.1 = 0 := by
            intro x hx
            have hx' : x ∈ st.pq.erase pr.1 := by rw [← hr2]; exact hx
            exact htie x (List.erase_subset _ _ hx')
          exact key _ _ hsrest e he
  · intro pq e rest htie hpop x hx
    have hmin := popMin_some_min hpop x hx
    have hte : e.2.1 = 0 := htie e (popMin_some_mem hpop)
    have htx : x.2.1 = 0 := htie x hx
    rw [entryLt] at hmin
    by_cases h1 : x.1 < e.1
    · rw [if_pos h1] at hmin; exact absurd hmin (by simp)
    · rw [if_neg h1] at hmin
      by_cases h2 : e.1 < x.1
      · exact Or.inl h2
      · rw [if_neg h2] at hmin
        rw [if_neg (by omega : ¬ x.2.1 < e.2.1), if_neg (by omega : ¬ e.2.1 < x.2.1)]
          at hmin
        exact Or.inr ⟨by omega, hmin⟩

/-! ## Inversion-parity lemmas for C10 -/

theorem invPairs_eq_inv_filter :
    ∀ l : List Int, invPairs l = inv (l.filter (fun v => v != 0)) := by
  intro l
  induction l with
  | nil => rfl
  | cons x xs ih =>
      by_cases hx : x = 0
      · rw [hx]
        show List.countP _ xs + invPairs xs = _
        have hcp : xs.countP (fun y => decide ((0 : Int) ≠ 0 ∧ y ≠ 0 ∧ y < 0)) = 0 := by
          apply List.countP_eq_zero.mpr
          intro a _
          simp
        rw [hcp, List.filter_cons]
        simp [ih]
      · show List.countP _ xs + invPairs xs = _
        rw [List.filter_cons]
        have hxb : ((x : Int) != 0) = true := by simpa using hx
        rw [if_pos hxb]
        show _ = List.countP _ (xs.filter fun v => v != 0) + inv (xs.filter fun v => v != 0)
        rw [List.countP_filter, ih]
        congr 1
        apply List.countP_congr
        intro a _
        by_cases ha : a = 0
        · simp [ha, hx]
        · by_cases hlt : a < x
          · simp [ha, hx, hlt]
          · simp [ha, hx, hlt]

theorem cross_nil_left (ys : List Int) : cross [] ys = 0 := rfl

theorem cross_cons_left (x : Int) (xs ys : List Int) :
    cross (x :: xs) ys = ys.countP (fun y => decide (y < x)) + cross xs ys := by
  simp [cross]

theorem inv_append : ∀ (xs ys : List Int),
    inv (xs ++ ys) = inv xs + inv ys + cross xs ys := by
  intro xs
  induction xs with
  | nil => intro ys; simp [inv, cross_nil_left]
  | cons x xs ih =>
      intro ys
      show List.countP _ (xs ++ ys) + inv (xs ++ ys) = _
      rw [List.countP_append, ih, cross_cons_left]
      show _ = List.countP _ xs + inv xs + inv ys + _
      omega

theorem cross_append_right : ∀ (xs ys zs : List Int),
    cross xs (ys ++ zs) = cross xs ys + cross xs zs := by
  intro xs
  induction xs with
  | nil => intro ys zs; simp [cross_nil_left]
  | cons x xs ih =>
      intro ys zs
      rw [cross_cons_left, cross_cons_left, cross_cons_left, List.countP_append, ih]
      omega

theorem cross_append_left : ∀ (xs ys zs : List Int),
    cross (xs ++ ys) zs = cross xs zs + cross ys zs := by
  intro xs
  induction xs with
  | nil => intro ys zs; simp [cross_nil_left]
  | cons x xs ih =>
      intro ys zs
      rw [List.cons_append, cross_cons_left, cross_cons_left, ih]
      omega

theorem cross_singleton_left (b : Int) (ys : List Int) :
    cross [b] ys = ys.countP (fun y => decide (y < b)) := by
  simp [cross]

theorem cross_singleton_right : ∀ (xs : List Int) (b : Int),
    cross xs [b] = xs.countP (fun x => decide (b < x)) := by
  intro xs
  induction xs with
  | nil => intro b; rfl
  | cons x xs ih =>
      intro b
      rw [cross_cons_left, ih, List.countP_cons]
      by_cases hb : b < x
      · simp [hb, List.countP_cons]
        omega
      · simp [hb, List.countP_cons]

theorem inv_singleton (b : Int) : inv [b] = 0 := by
  simp [inv]

/-- Moving one value `b` across a block `M` changes the inversion count by
the balance of `M`-elements smaller and larger than `b`. -/
theorem inv_shift (A M B : List Int) (b : Int) :
    inv (A ++ ([b] ++ (M ++ B))) + M.countP (fun m => decide (b < m)) =
      inv (A ++ (M ++ ([b] ++ B))) + M.countP (fun m => decide (m < b)) := by
  simp only [inv_append, cross_append_right, cross_append_left,
    cross_singleton_left, cross_singleton_right, inv_singleton]
  omega

theorem countP_lt_add_countP_gt (M : List Int) (b : Int)
    (hM : ∀ m ∈ M, m ≠ b) :
    M.countP (fun m => decide (m < b)) + M.countP (fun m => decide (b < m)) =
      M.length := by
  induction M with
  | nil => rfl
  | cons m ms ih =>
      have hm : m ≠ b := hM m (List.mem_cons_self m ms)
      have hms : ∀ x ∈ ms, x ≠ b := fun x hx => hM x (List.mem_cons.mpr (Or.inr hx))
      have hrec := ih hms
      by_cases hlt : m < b
      · have hnb : ¬ b < m := by omega
        simp [List.countP_cons, hlt, hnb]
        omega
      · have hgt : b < m := by omega
        simp [List.countP_cons, hlt, hgt]
        omega

/-- The core parity fact: exchanging the blank with a value `t` across an
even-length block of nonzero values preserves `is_solvable`. -/
theorem is_solvable_exchange (P M B : List Int) (t : Int)
    (hP : ∀ v ∈ P, v ≠ 0) (hM : ∀ v ∈ M, v ≠ 0) (hB : ∀ v ∈ B, v ≠ 0)
    (ht : t ≠ 0) (htM : ∀ m ∈ M, m ≠ t) (hMlen : M.length % 2 = 0) :
    is_solvable (P ++ t :: (M ++ 0 :: B)) = is_solvable (P ++ 0 :: (M ++ t :: B)) := by
  have hfP : P.filter (fun v => v != 0) = P :=
    List.filter_eq_self.mpr (fun a ha => by simpa using hP a ha)
  have hfM : M.filter (fun v => v != 0) = M :=
    List.filter_eq_self.mpr (fun a ha => by simpa using hM a ha)
  have hfB : B.filter (fun v => v != 0) = B :=
    List.filter_eq_self.mpr (fun a ha => by simpa using hB a ha)
  have hft : ((t : Int) != 0) = true := by simpa using ht
  have h1 : invPairs (P ++ t :: (M ++ 0 :: B)) = inv (P ++ ([t] ++ (M ++ B))) := by
    rw [invPairs_eq_inv_filter]
    congr 1
    simp [List.filter_append, List.filter_cons, hfP, hfM, hfB, hft]
  have h2 : invPairs (P ++ 0 :: (M ++ t :: B)) = inv (P ++ (M ++ ([t] ++ B))) := by
    rw [invPairs_eq_inv_filter]
    congr 1
    simp [List.filter_append, List.filter_cons, hfP, hfM, hfB, hft]
  have hsum := inv_shift P M B t
  have hcnt := countP_lt_add_countP_gt M t htM
  have hmod : invPairs (P ++ t :: (M ++ 0 :: B)) % 2 =
      invPairs (P ++ 0 :: (M ++ t :: B)) % 2 := by
    rw [h1, h2]
    omega
  unfold is_solvable
  rw [hmod]

/-! ## List surgery around two positions -/

theorem getD_append_length : ∀ (P R : List Int) (x : Int),
    (P ++ x :: R).getD P.length 0 = x := by
  intro P
  induction P with
  | nil => intro R x; rfl
  | cons p ps ih => intro R x; exact ih R x

theorem set_append_length : ∀ (P R : List Int) (x w : Int),
    (P ++ x :: R).set P.length w = P ++ w :: R := by
  intro P
  induction P with
  | nil => intro R x w; rfl
  | cons p ps ih =>
      intro R x w
      show p :: ((ps ++ x :: R).set ps.length w) = p :: (ps ++ w :: R)
      rw [ih]

theorem list_split : ∀ (l : List Int) (k : Nat), k < l.length →
    l = l.take k ++ l.getD k 0 :: l.drop (k + 1) := by
  intro l
  induction l with
  | nil => intro k hk; simp at hk
  | cons x xs ih =>
      intro k hk
      cases k with
      | zero => rfl
      | succ n =>
          have hn : n < xs.length := by simpa using hk
          show x :: xs = x :: (xs.take n ++ xs.getD n 0 :: xs.drop (n + 1))
          rw [← ih n hn]

theorem swapAt_comm (s : Board) (i j : Nat) (hij : i ≠ j) :
    swapAt s i j = swapAt s j i := by
  unfold swapAt
  exact List.set_comm _ _ _ hij

theorem swapAt_decomp (P M B : List Int) (a b : Int) :
    swapAt (P ++ a :: (M ++ b :: B)) P.length (P ++ a :: M).length =
      P ++ b :: (M ++ a :: B) := by
  unfold swapAt
  have h1 : P ++ a :: (M ++ b :: B) = (P ++ a :: M) ++ b :: B := by simp
  have hgj : (P ++ a :: (M ++ b :: B)).getD (P ++ a :: M).length 0 = b := by
    rw [h1, getD_append_length]
  have hgi : (P ++ a :: (M ++ b :: B)).getD P.length 0 = a := getD_append_length P _ a
  rw [hgj, hgi, set_append_length]
  have h2 : P ++ b :: (M ++ b :: B) = (P ++ b :: M) ++ b :: B := by simp
  have h3 : (P ++ a :: M).length = (P ++ b :: M).length := by simp
  rw [h2, h3, set_append_length]
  simp

/-- Swapping the blank across positions at odd index-distance preserves
`is_solvable`, for boards that are permutations of 0–8. -/
theorem is_solvable_swapAt (s : Board) (i j : Nat) (hij : i < j)
    (hj : j < s.length) (hodd : (j - i) % 2 = 1)
    (h0 : s.getD i 0 = 0 ∨ s.getD j 0 = 0) (hs : s.Perm std) :
    is_solvable (swapAt s i j) = is_solvable s := by
  have hi : i < s.length := lt_trans hij hj
  have hsplit1 : s = s.take i ++ s.getD i 0 :: s.drop (i + 1) := list_split s i hi
  have hRlen : (s.drop (i + 1)).length = s.length - (i + 1) := by simp
  have hk : j - i - 1 < (s.drop (i + 1)).length := by omega
  have hsplit2 : s.drop (i + 1) =
      (s.drop (i + 1)).take (j - i - 1) ++
        (s.drop (i + 1)).getD (j - i - 1) 0 :: (s.drop (i + 1)).drop (j - i) := by
    have h := list_split (s.drop (i + 1)) (j - i - 1) hk
    rw [show j - i - 1 + 1 = j - i by omega] at h
    exact h
  obtain ⟨P, u, M, v, B, hsdecomp, hPlen, hMlen⟩ :
      ∃ (P : List Int) (u : Int) (M : List Int) (v : Int) (B : List Int),
        s = P ++ u :: (M ++ v :: B) ∧ P.length = i ∧ M.length = j - i - 1 := by
    refine ⟨s.take i, s.getD i 0, (s.drop (i + 1)).take (j - i - 1),
      (s.drop (i + 1)).getD (j - i - 1) 0, (s.drop (i + 1)).drop (j - i), ?_, ?_, ?_⟩
    · rw [← hsplit2]; exact hsplit1
    · simp; omega
    · simp; omega
  have hjlen : (P ++ u :: M).length = j := by
    simp [hPlen, hMlen]
    omega
  have hs2 : s = (P ++ u :: M) ++ v :: B := by rw [hsdecomp]; simp
  have hui : s.getD i 0 = u := by
    conv in s.getD i 0 => rw [hsdecomp, ← hPlen]
    exact getD_append_length P _ u
  have hvj : s.getD j 0 = v := by
    conv in s.getD j 0 => rw [hs2, ← hjlen]
    exact getD_append_length (P ++ u :: M) B v
  have hnd : s.Nodup := hs.nodup_iff.mpr (by decide)
  have hgoal : is_solvable (swapAt s i j) =
      is_solvable (P ++ v :: (M ++ u :: B)) := by
    rw [hsdecomp, ← hPlen, ← hjlen, swapAt_decomp]
  rw [hgoal, hsdecomp]
  rw [hsdecomp] at hnd
  have hdisjP : List.Disjoint P (u :: (M ++ v :: B)) :=
    List.disjoint_of_nodup_append hnd
  have hndu : (u :: (M ++ v :: B)).Nodup :=
    (List.sublist_append_right P (u :: (M ++ v :: B))).nodup hnd
  have hundu := (List.nodup_cons.mp hndu).1
  have hndMB : (M ++ v :: B).Nodup := (List.nodup_cons.mp hndu).2
  have hdisjM : List.Disjoint M (v :: B) := List.disjoint_of_nodup_append hndMB
  have hndvB : (v :: B).Nodup :=
    (List.sublist_append_right M (v :: B)).nodup hndMB
  have hMeven : M.length % 2 = 0 := by omega
  rcases h0 with h0u | h0v
  · have hu0 : u = 0 := by rw [← hui]; exact h0u
    have hP : ∀ x ∈ P, x ≠ 0 := by
      intro x hx hx0
      exact hdisjP (hx0 ▸ hx) (by rw [hu0]; exact List.mem_cons_self _ _)
    have hM : ∀ x ∈ M, x ≠ 0 := by
      intro x hx hx0
      exact hundu (by rw [hu0, ← hx0]; exact List.mem_append_left _ hx)
    have hv0 : v ≠ 0 := by
      intro hv
      exact hundu (by rw [hu0, ← hv]; exact List.mem_append_right _ (List.mem_cons_self _ _))
    have hB : ∀ x ∈ B, x ≠ 0 := by
      intro x hx hx0
      exact hundu (by
        rw [hu0, ← hx0]
        exact List.mem_append_right _ (List.mem_cons.mpr (Or.inr hx)))
    have htM : ∀ m ∈ M, m ≠ v := by
      intro m hm hmv
      exact hdisjM hm (by rw [← hmv]; exact List.mem_cons_self _ _)
    rw [hu0]
    exact is_solvable_exchange P M B v hP hM hB hv0 htM hMeven
  · have hv0 : v = 0 := by rw [← hvj]; exact h0v
    have hP : ∀ x ∈ P, x ≠ 0 := by
      intro x hx hx0
      exact hdisjP (hx0 ▸ hx)
        (by rw [hv0]; exact List.mem_cons.mpr (Or.inr
          (List.mem_append_right _ (List.mem_cons_self _ _))))
    have hM : ∀ x ∈ M, x ≠ 0 := by
      intro x hx hx0
      exact hdisjM (hx0 ▸ hx) (by rw [hv0]; exact List.mem_cons_self _ _)
    have hB : ∀ x ∈ B, x ≠ 0 := by
      intro x hx hx0
      exact (List.nodup_cons.mp hndvB).1 (by rw [hv0, ← hx0]; exact hx)
    have hu0 : u ≠ 0 := by
      intro hu
      exact hundu (by
        rw [hu, ← hv0]
        exact List.mem_append_right _ (List.mem_cons_self _ _))
    have htM : ∀ m ∈ M, m ≠ u := by
      intro m hm hmu
      exact hundu (by rw [← hmu]; exact List.mem_append_left _ hm)
    rw [hv0]
    exact (is_solvable_exchange P M B u hP hM hB hu0 htM hMeven).symm

theorem getD_indexOf_zero {s : List Int} (h : (0 : Int) ∈ s) :
    s.getD (s.indexOf 0) 0 = 0 := by
  have hlt : s.indexOf 0 < s.length := List.indexOf_lt_length.mpr h
  rw [List.getD_eq_getD_get?, List.get?_eq_get hlt]
  simpa using List.indexOf_get hlt

/-- Case analysis of the neighbor list. -/
theorem nbrs_cases {zi ni : Nat} (hni : ni ∈ nbrs zi) :
    (3 ≤ zi ∧ ni = zi - 3) ∨ (zi / 3 < 2 ∧ ni = zi + 3) ∨
      (zi % 3 > 0 ∧ ni = zi - 1) ∨ (zi % 3 < 2 ∧ ni = zi + 1) := by
  rw [nbrs] at hni
  simp only [List.mem_append] at hni
  rcases hni with ((h1 | h2) | h3) | h4
  · by_cases hc : zi / 3 > 0
    · rw [if_pos hc] at h1; simp at h1
      exact Or.inl ⟨by omega, h1⟩
    · rw [if_neg hc] at h1; simp at h1
  · by_cases hc : zi / 3 < 2
    · rw [if_pos hc] at h2; simp at h2
      exact Or.inr (Or.inl ⟨hc, h2⟩)
    · rw [if_neg hc] at h2; simp at h2
  · by_cases hc : zi % 3 > 0
    · rw [if_pos hc] at h3; simp at h3
      exact Or.inr (Or.inr (Or.inl ⟨hc, h3⟩))
    · rw [if_neg hc] at h3; simp at h3
  · by_cases hc : zi % 3 < 2
    · rw [if_pos hc] at h4; simp at h4
      exact Or.inr (Or.inr (Or.inr ⟨hc, h4⟩))
    · rw [if_neg hc] at h4; simp at h4

/-- Expanding a neighbor preserves solvability (the shared content of the
legal-move invariant). -/
theorem solvable_swap_nbr (s : Board) (hs : s.Perm std) (ni : Nat)
    (hni : ni ∈ nbrs (s.indexOf 0)) :
    is_solvable (swapAt s (s.indexOf 0) ni) = is_solvable s := by
  have h0mem : (0 : Int) ∈ s := hs.mem_iff.mpr (by decide)
  have hzi : s.indexOf 0 < s.length := List.indexOf_lt_length.mpr h0mem
  have hlen : s.length = 9 := by rw [hs.length_eq]; rfl
  have hget : s.getD (s.indexOf 0) 0 = 0 := getD_indexOf_zero h0mem
  set zi := s.indexOf 0 with hzidef
  rcases nbrs_cases hni with ⟨hc, h1⟩ | ⟨hc, h2⟩ | ⟨hc, h3⟩ | ⟨hc, h4⟩
  · rw [h1, swapAt_comm s zi (zi - 3) (by omega)]
    exact is_solvable_swapAt s (zi - 3) zi (by omega) (by omega)
      (by omega) (Or.inr hget) hs
  · rw [h2]
    exact is_solvable_swapAt s zi (zi + 3) (by omega) (by omega)
      (by omega) (Or.inl hget) hs
  · rw [h3, swapAt_comm s zi (zi - 1) (by omega)]
    exact is_solvable_swapAt s (zi - 1) zi (by omega) (by omega)
      (by omega) (Or.inr hget) hs
  · rw [h4]
    exact is_solvable_swapAt s zi (zi + 1) (by omega) (by omega)
      (by omega) (Or.inl hget) hs

/-- A position swap within bounds permutes the list. -/
theorem swapAt_perm_of_lt (s : Board) (i j : Nat) (hij : i < j)
    (hj : j < s.length) : (swapAt s i j).Perm s := by
  have hi : i < s.length := lt_trans hij hj
  have hsplit1 : s = s.take i ++ s.getD i 0 :: s.drop (i + 1) := list_split s i hi
  have hRlen : (s.drop (i + 1)).length = s.length - (i + 1) := by simp
  have hk : j - i - 1 < (s.drop (i + 1)).length := by omega
  have hsplit2 : s.drop (i + 1) =
      (s.drop (i + 1)).take (j - i - 1) ++
        (s.drop (i + 1)).getD (j - i - 1) 0 :: (s.drop (i + 1)).drop (j - i) := by
    have h := list_split (s.drop (i + 1)) (j - i - 1) hk
    rw [show j - i - 1 + 1 = j - i by omega] at h
    exact h
  obtain ⟨P, u, M, v, B, hsdecomp, hPlen, hMlen⟩ :
      ∃ (P : List Int) (u : Int) (M : List Int) (v : Int) (B : List Int),
        s = P ++ u :: (M ++ v :: B) ∧ P.length = i ∧ M.length = j - i - 1 := by
    refine ⟨s.take i, s.getD i 0, (s.drop (i + 1)).take (j - i - 1),
      (s.drop (i + 1)).getD (j - i - 1) 0, (s.drop (i + 1)).drop (j - i), ?_, ?_, ?_⟩
    · rw [← hsplit2]; exact hsplit1
    · simp; omega
    · simp; omega
  have hjlen : (P ++ u :: M).length = j := by
    simp [hPlen, hMlen]
    omega
  have hswap : swapAt s i j = P ++ v :: (M ++ u :: B) := by
    rw [hsdecomp, ← hPlen, ← hjlen, swapAt_decomp]
  rw [hswap, hsdecomp]
  refine List.Perm.append_left P ?_
  have h1 : (v :: (M ++ u :: B)).Perm (v :: (u :: (M ++ B))) :=
    List.Perm.cons v List.perm_middle
  have h2 : (v :: u :: (M ++ B)).Perm (u :: v :: (M ++ B)) :=
    List.Perm.swap u v (M ++ B)
  have h3 : (u :: (v :: (M ++ B))).Perm (u :: (M ++ v :: B)) :=
    List.Perm.cons u List.perm_middle.symm
  exact (h1.trans h2).trans h3

/-- Expanding a neighbor permutes the board. -/
theorem swap_nbr_perm (s : Board) (hs : s.Perm std) (ni : Nat)
    (hni : ni ∈ nbrs (s.indexOf 0)) : (swapAt s (s.indexOf 0) ni).Perm s := by
  have h0mem : (0 : Int) ∈ s := hs.mem_iff.mpr (by decide)
  have hzi : s.indexOf 0 < s.length := List.indexOf_lt_length.mpr h0mem
  have hlen : s.length = 9 := by rw [hs.length_eq]; rfl
  set zi := s.indexOf 0 with hzidef
  rcases nbrs_cases hni with ⟨hc, h1⟩ | ⟨hc, h2⟩ | ⟨hc, h3⟩ | ⟨hc, h4⟩
  · rw [h1, swapAt_comm s zi (zi - 3) (by omega)]
    exact swapAt_perm_of_lt s (zi - 3) zi (by omega) (by omega)
  · rw [h2]
    exact swapAt_perm_of_lt s zi (zi + 3) (by omega) (by omega)
  · rw [h3, swapAt_comm s zi (zi - 1) (by omega)]
    exact swapAt_perm_of_lt s (zi - 1) zi (by omega) (by omega)
  · rw [h4]
    exact swapAt_perm_of_lt s zi (zi + 1) (by omega) (by omega)

/-- C10: swapping the blank with any neighbor generated by the search
(`nbrs`/`swapAt`, exactly as `a_star_with_path` builds its successors)
preserves `is_solvable`; likewise for the swap the `/move` route performs.
Hence all states reachable by legal moves from a solvable board stay
solvable. -/
theorem C10_legal_moves_preserve_solvability :
    (∀ s : Board, s.Perm std → ∀ ni ∈ nbrs (s.indexOf 0),
        is_solvable (swapAt s (s.indexOf 0) ni) = is_solvable s) ∧
    (∀ s : Board, s.Perm std → ∀ t : Int, t ∈ s →
        is_solvable (move_tile s t) = is_solvable s) := by
  constructor
  · exact solvable_swap_nbr
  · intro s hs t ht
    have h0mem : (0 : Int) ∈ s := hs.mem_iff.mpr (by decide)
    have hblank : s.indexOf 0 < s.length := List.indexOf_lt_length.mpr h0mem
    have hti : s.indexOf t < s.length := List.indexOf_lt_length.mpr ht
    have hget : s.getD (s.indexOf 0) 0 = 0 := getD_indexOf_zero h0mem
    rw [move_tile]
    by_cases hc : (((s.indexOf 0 / 3 : Nat) : Int) - ((s.indexOf t / 3 : Nat) : Int)).natAbs +
        (((s.indexOf 0 % 3 : Nat) : Int) - ((s.indexOf t % 3 : Nat) : Int)).natAbs = 1
    · simp only [if_pos hc]
      rcases Nat.lt_trichotomy (s.indexOf 0) (s.indexOf t) with hlt | heq | hgt
      · exact is_solvable_swapAt s (s.indexOf 0) (s.indexOf t) hlt hti
          (by omega) (Or.inl hget) hs
      · exfalso
        rw [heq] at hc
        omega
      · rw [swapAt_comm s _ _ (by omega)]
        exact is_solvable_swapAt s (s.indexOf t) (s.indexOf 0) hgt hblank
          (by omega) (Or.inr hget) hs
    · simp only [if_neg hc]

theorem C10_witness :
    goal.Perm std ∧ (7 : Nat) ∈ nbrs (goal.indexOf 0) ∧
      is_solvable (swapAt goal (goal.indexOf 0) 7) = is_solvable goal ∧
      is_solvable (move_tile goal 8) = is_solvable goal :=
  ⟨by decide, by decide,
    C10_legal_moves_preserve_solvability.1 goal (by decide) 7 (by decide),
    C10_legal_moves_preserve_solvability.2 goal (by decide) 8 (by decide)⟩

/-! ## The search-loop invariant and termination measure -/

theorem dlookup_pair {α : Type} (k b : Board) (v : α) :
    dlookup [(k, v)] b = if k = b then some v else none := by
  by_cases h : k = b
  · unfold dlookup
    rw [List.find?_cons_of_pos _ (by simp [h])]
    simp [h]
  · unfold dlookup
    rw [List.find?_cons_of_neg _ (by simp [h])]
    simp [h]

theorem g_length_le {start : Board} (hstd : start.Perm std) {st : AState}
    (hinv : Inv start st) : st.g.length ≤ 362880 := by
  have hnd := hinv.gkeys_nodup
  have hsub : st.g.map Prod.fst ⊆ std.permutations := by
    intro b hb
    have hperm : b.Perm start := hinv.g_perm b (dlookup_isSome_of_mem_keys _ _ hb)
    exact List.mem_permutations.mpr (hperm.trans hstd)
  have hle := (List.subperm_of_subset hnd hsub).length_le
  rw [List.length_map] at hle
  have h9 : (std.permutations).length = 362880 := by
    rw [List.length_permutations]
    rfl
  omega

theorem initState_inv (h : Board → Int) (start : Board) :
    Inv start (initState h start) := by
  have hg : (initState h start).g = [(start, 0)] := rfl
  have hp : (initState h start).parent = [(start, (none : Option Board))] := rfl
  have hpq : (initState h start).pq = [(h start, next (count 0), start)] := rfl
  refine ⟨?_, ?_, ?_, ?_, ?_, ?_, ?_, ?_, ?_⟩
  · rw [hg]; simp
  · rw [hp, dlookup_pair]; simp
  · intro b hb
    rw [hp, dlookup_pair] at hb
    by_cases hsb : start = b
    · exact hsb.symm
    · rw [if_neg hsb] at hb; exact absurd hb (by simp)
  · rw [hg, dlookup_pair]; simp
  · intro b v hbv
    rw [hg, dlookup_pair] at hbv
    by_cases hsb : start = b
    · rw [if_pos hsb] at hbv
      have hv : v = 0 := by
        have := Option.some_injective _ hbv
        exact this.symm
      rw [hv, hg]
      simp
    · rw [if_neg hsb] at hbv; exact absurd hbv (by simp)
  · intro b hb
    rw [hg, dlookup_pair] at hb
    by_cases hsb : start = b
    · rw [← hsb]
    · rw [if_neg hsb] at hb; simp at hb
  · intro b hb
    rw [hg, dlookup_pair] at hb
    by_cases hsb : start = b
    · rw [← hsb]
    · rw [if_neg hsb] at hb; simp at hb
  · intro e he
    rw [hpq] at he
    have he' : e = (h start, next (count 0), start) := by simpa using he
    rw [he', hg, dlookup_pair]
    simp
  · intro e he
    rw [hpq] at he
    have he' : e = (h start, next (count 0), start) := by simpa using he
    rw [he', hp, dlookup_pair]
    simp

theorem expandOne_eq_none (h : Board → Int) (cur : Board) (zi : Nat)
    (st : AState) (ni : Nat)
    (hlook : dlookup st.g (swapAt cur zi ni) = none) :
    expandOne h cur zi st ni =
      { pq := st.pq ++ [((dlookup st.g cur).getD 0 + 1 + h (swapAt cur zi ni),
          next (count 0), swapAt cur zi ni)],
        parent := dupd st.parent (swapAt cur zi ni) (some cur),
        g := dupd st.g (swapAt cur zi ni) ((dlookup st.g cur).getD 0 + 1) } := by
  simp only [expandOne, hlook]
  rw [if_pos trivial]

theorem expandOne_eq_lt (h : Board → Int) (cur : Board) (zi : Nat)
    (st : AState) (ni : Nat) (gv : Int)
    (hlook : dlookup st.g (swapAt cur zi ni) = some gv)
    (hlt : (dlookup st.g cur).getD 0 + 1 < gv) :
    expandOne h cur zi st ni =
      { pq := st.pq ++ [((dlookup st.g cur).getD 0 + 1 + h (swapAt cur zi ni),
          next (count 0), swapAt cur zi ni)],
        parent := dupd st.parent (swapAt cur zi ni) (some cur),
        g := dupd st.g (swapAt cur zi ni) ((dlookup st.g cur).getD 0 + 1) } := by
  simp only [expandOne, hlook]
  rw [if_pos (decide_eq_true hlt)]

theorem expandOne_eq_ge (h : Board → Int) (cur : Board) (zi : Nat)
    (st : AState) (ni : Nat) (gv : Int)
    (hlook : dlookup st.g (swapAt cur zi ni) = some gv)
    (hge : ¬ ((dlookup st.g cur).getD 0 + 1 < gv)) :
    expandOne h cur zi st ni = st := by
  simp only [expandOne, hlook]
  rw [if_neg (by simp only [decide_eq_true_eq]; exact hge)]

/-- Core fact: recording a strictly better `g` for a legal neighbor
preserves the invariant. -/
theorem inserted_inv {start : Board} (hstd : start.Perm std) {st : AState}
    (hinv : Inv start st) {cur nxt : Board} {gc : Int}
    (hgc : dlookup st.g cur = some gc)
    (hnxtperm : nxt.Perm start)
    (hnxtpar : is_solvable nxt = is_solvable start)
    (hcase : dlookup st.g nxt = none ∨
      ∃ gv, dlookup st.g nxt = some gv ∧ gc + 1 < gv)
    (f tie : Int) :
    Inv start { pq := st.pq ++ [(f, tie, nxt)],
                parent := dupd st.parent nxt (some cur),
                g := dupd st.g nxt (gc + 1) } := by
  have hgcb := hinv.g_bound cur gc hgc
  have hne_start : nxt ≠ start := by
    intro hns
    rcases hcase with hnone | ⟨gv, hsome, hlt⟩
    · rw [hns, hinv.g_start] at hnone
      exact absurd hnone (by simp)
    · rw [hns, hinv.g_start] at hsome
      have : gv = 0 := (Option.some_injective _ hsome).symm
      omega
  have hlen' : (dupd st.g nxt (gc + 1)).length = st.g.length + 1 ∨
      (dupd st.g nxt (gc + 1)).length = st.g.length := by
    rcases hcase with hnone | ⟨gv, hsome, _⟩
    · exact Or.inl (dupd_length_of_none st.g nxt (gc + 1) hnone)
    · exact Or.inr (dupd_length_of_some st.g nxt (gc + 1) hinv.gkeys_nodup
        (by rw [hsome]; rfl))
  refine ⟨?_, ?_, ?_, ?_, ?_, ?_, ?_, ?_, ?_⟩
  · exact dupd_keys_nodup st.g nxt (gc + 1) hinv.gkeys_nodup
  · show dlookup (dupd st.parent nxt (some cur)) start = some none
    rw [dlookup_dupd_ne _ _ _ _ (fun hh => hne_start hh.symm)]
    exact hinv.parent_start
  · intro b hb
    by_cases hbn : b = nxt
    · rw [hbn, dlookup_dupd_self] at hb
      exact absurd (Option.some_injective _ hb) (by simp)
    · rw [dlookup_dupd_ne _ _ _ _ hbn] at hb
      exact hinv.parent_none b hb
  · show dlookup (dupd st.g nxt (gc + 1)) start = some 0
    rw [dlookup_dupd_ne _ _ _ _ (fun hh => hne_start hh.symm)]
    exact hinv.g_start
  · intro b v hbv
    by_cases hbn : b = nxt
    · rw [hbn, dlookup_dupd_self] at hbv
      have hv : v = gc + 1 := (Option.some_injective _ hbv).symm
      constructor
      · omega
      · rcases hcase with hnone | ⟨gv, hsome, hlt⟩
        · have := dupd_length_of_none st.g nxt (gc + 1) hnone
          rw [this, hv]
          push_cast
          omega
        · have := dupd_length_of_some st.g nxt (gc + 1) hinv.gkeys_nodup
            (by rw [hsome]; rfl)
          have hgvb := hinv.g_bound nxt gv hsome
          rw [this, hv]
          omega
    · rw [dlookup_dupd_ne _ _ _ _ hbn] at hbv
      have := hinv.g_bound b v hbv
      rcases hlen' with hl | hl <;> rw [hl] <;> push_cast <;> push_cast at this <;> omega
  · intro b hb
    by_cases hbn : b = nxt
    · rw [hbn]; exact hnxtperm
    · rw [dlookup_dupd_ne _ _ _ _ hbn] at hb
      exact hinv.g_perm b hb
  · intro b hb
    by_cases hbn : b = nxt
    · rw [hbn]; exact hnxtpar
    · rw [dlookup_dupd_ne _ _ _ _ hbn] at hb
      exact hinv.g_parity b hb
  · intro e he
    rcases List.mem_append.mp he with h1 | h2
    · exact dlookup_dupd_isSome _ _ _ _ (hinv.pq_g e h1)
    · have he' : e = (f, tie, nxt) := by simpa using h2
      rw [he']
      show (dlookup (dupd st.g nxt (gc + 1)) nxt).isSome = true
      rw [dlookup_dupd_self]
      rfl
  · intro e he
    rcases List.mem_append.mp he with h1 | h2
    · exact dlookup_dupd_isSome _ _ _ _ (hinv.pq_parent e h1)
    · have he' : e = (f, tie, nxt) := by simpa using h2
      rw [he']
      show (dlookup (dupd st.parent nxt (some cur)) nxt).isSome = true
      rw [dlookup_dupd_self]
      rfl

/-- Recording a strictly better `g` drops the measure enough to pay for
the accompanying heap push. -/
theorem inserted_measure {start : Board} (hstd : start.Perm std) {st : AState}
    (hinv : Inv start st) {cur nxt : Board} {gc : Int}
    (hgc : dlookup st.g cur = some gc)
    (hnxtperm : nxt.Perm start)
    (hnxtpar : is_solvable nxt = is_solvable start)
    (hcase : dlookup st.g nxt = none ∨
      ∃ gv, dlookup st.g nxt = some gv ∧ gc + 1 < gv)
    (f tie : Int) :
    astMeasure { pq := st.pq ++ [(f, tie, nxt)],
                 parent := dupd st.parent nxt (some cur),
                 g := dupd st.g nxt (gc + 1) } ≤ astMeasure st := by
  have hgcb := hinv.g_bound cur gc hgc
  have hinv' := inserted_inv hstd hinv hgc hnxtperm hnxtpar hcase f tie
  have hlen362 : (dupd st.g nxt (gc + 1)).length ≤ 362880 :=
    g_length_le hstd hinv'
  show (st.pq ++ [(f, tie, nxt)]).length +
      2 * (gPot (dupd st.g nxt (gc + 1)) +
        (362880 - (dupd st.g nxt (gc + 1)).length) * 362881) ≤
    st.pq.length + 2 * (gPot st.g + (362880 - st.g.length) * 362881)
  rw [List.length_append, List.length_singleton]
  rcases hcase with hnone | ⟨gv, hsome, hlt⟩
  · have hl := dupd_length_of_none st.g nxt (gc + 1) hnone
    have hp := gPot_dupd_of_none st.g nxt (gc + 1) hnone
    rw [hl, hp]
    rw [hl] at hlen362
    have htn : (gc + 1).toNat ≤ st.g.length := by omega
    have hq : 362880 - st.g.length = (362880 - (st.g.length + 1)) + 1 := by omega
    rw [hq, Nat.add_mul]
    omega
  · have hl := dupd_length_of_some st.g nxt (gc + 1) hinv.gkeys_nodup
      (by rw [hsome]; rfl)
    have hp := gPot_dupd_of_some st.g nxt (gc + 1) gv hinv.gkeys_nodup hsome
    have hgvb := hinv.g_bound nxt gv hsome
    rw [hl]
    have h1 : (gc + 1).toNat < gv.toNat := by omega
    omega

theorem expandOne_preserves {start : Board} (hstd : start.Perm std)
    (h : Board → Int) (cur : Board) (st : AState) (ni : Nat)
    (hinv : Inv start st) (hcur : (dlookup st.g cur).isSome = true)
    (hcurp : cur.Perm start) (hni : ni ∈ nbrs (cur.indexOf 0)) :
    Inv start (expandOne h cur (cur.indexOf 0) st ni) ∧
      (dlookup (expandOne h cur (cur.indexOf 0) st ni).g cur).isSome = true ∧
      astMeasure (expandOne h cur (cur.indexOf 0) st ni) ≤ astMeasure st := by
  obtain ⟨gc, hgc⟩ := Option.isSome_iff_exists.mp hcur
  have hnxtperm : (swapAt cur (cur.indexOf 0) ni).Perm start :=
    (swap_nbr_perm cur (hcurp.trans hstd) ni hni).trans hcurp
  have hnxtpar : is_solvable (swapAt cur (cur.indexOf 0) ni) = is_solvable start := by
    rw [solvable_swap_nbr cur (hcurp.trans hstd) ni hni]
    exact hinv.g_parity cur (by rw [hgc]; rfl)
  have hng : (dlookup st.g cur).getD 0 + 1 = gc + 1 := by rw [hgc]; rfl
  cases hlook : dlookup st.g (swapAt cur (cur.indexOf 0) ni) with
  | none =>
      rw [expandOne_eq_none h cur (cur.indexOf 0) st ni hlook, hng]
      refine ⟨inserted_inv hstd hinv hgc hnxtperm hnxtpar (Or.inl hlook) _ _, ?_,
        inserted_measure hstd hinv hgc hnxtperm hnxtpar (Or.inl hlook) _ _⟩
      exact dlookup_dupd_isSome _ _ _ _ hcur
  | some gv =>
      by_cases hlt : (dlookup st.g cur).getD 0 + 1 < gv
      · rw [expandOne_eq_lt h cur (cur.indexOf 0) st ni gv hlook hlt, hng]
        have hcase : dlookup st.g (swapAt cur (cur.indexOf 0) ni) = none ∨
            ∃ gw, dlookup st.g (swapAt cur (cur.indexOf 0) ni) = some gw ∧
              gc + 1 < gw := Or.inr ⟨gv, hlook, by rw [hng] at hlt; exact hlt⟩
        refine ⟨inserted_inv hstd hinv hgc hnxtperm hnxtpar hcase _ _, ?_,
          inserted_measure hstd hinv hgc hnxtperm hnxtpar hcase _ _⟩
        exact dlookup_dupd_isSome _ _ _ _ hcur
      · rw [expandOne_eq_ge h cur (cur.indexOf 0) st ni gv hlook hlt]
        exact ⟨hinv, hcur, le_refl _⟩

theorem foldl_expand_preserves {start : Board} (hstd : start.Perm std)
    (h : Board → Int) (cur : Board) :
    ∀ (l : List Nat) (st : AState), (∀ n ∈ l, n ∈ nbrs (cur.indexOf 0)) →
      Inv start st → (dlookup st.g cur).isSome = true → cur.Perm start →
      Inv start (l.foldl (expandOne h cur (cur.indexOf 0)) st) ∧
        astMeasure (l.foldl (expandOne h cur (cur.indexOf 0)) st) ≤
          astMeasure st := by
  intro l
  induction l with
  | nil => intro st _ hinv _ _; exact ⟨hinv, le_refl _⟩
  | cons n ns ih =>
      intro st hl hinv hcur hcurp
      rw [List.foldl_cons]
      obtain ⟨hinv', hcur', hm⟩ := expandOne_preserves hstd h cur st n hinv hcur
        hcurp (hl n (List.mem_cons_self n ns))
      obtain ⟨hinv'', hm'⟩ := ih _ (fun x hx => hl x (List.mem_cons.mpr (Or.inr hx)))
        hinv' hcur' hcurp
      exact ⟨hinv'', le_trans hm' hm⟩

theorem step_cont_preserves {start : Board} (hstd : start.Perm std)
    (h : Board → Int) {st st' : AState}
    (hinv : Inv start st) (hstep : step h st = StepRes.cont st') :
    Inv start st' ∧ astMeasure st' < astMeasure st := by
  rw [step] at hstep
  cases hpop : popMin st.pq with
  | none => rw [hpop] at hstep; exact absurd hstep (by simp)
  | some pr =>
      rw [hpop] at hstep
      by_cases hg : pr.1.2.2 = goal
      · simp only [hg, if_pos rfl] at hstep
        exact absurd hstep (by simp)
      · simp only [if_neg hg] at hstep
        have hst' := (StepRes.cont.injEq _ _).mp hstep
        have hpop' : popMin st.pq = some (pr.1, pr.2) := by rw [hpop]
        have hmem : pr.1 ∈ st.pq := popMin_some_mem hpop'
        have hrest : pr.2 = st.pq.erase pr.1 := popMin_some_rest hpop'
        have hcur : (dlookup st.g pr.1.2.2).isSome = true := hinv.pq_g pr.1 hmem
        have hcurp : pr.1.2.2.Perm start := hinv.g_perm pr.1.2.2 hcur
        have hmid : Inv start { pq := pr.2, parent := st.parent, g := st.g } := by
          refine ⟨hinv.gkeys_nodup, hinv.parent_start, hinv.parent_none,
            hinv.g_start, hinv.g_bound, hinv.g_perm, hinv.g_parity, ?_, ?_⟩
          · intro e he
            have : e ∈ st.pq := by
              rw [hrest] at he
              exact List.erase_subset _ _ he
            exact hinv.pq_g e this
          · intro e he
            have : e ∈ st.pq := by
              rw [hrest] at he
              exact List.erase_subset _ _ he
            exact hinv.pq_parent e this
        obtain ⟨hinv'', hm'⟩ := foldl_expand_preserves hstd h pr.1.2.2
          (nbrs (pr.1.2.2.indexOf 0)) _ (fun x hx => hx) hmid hcur hcurp
        rw [hst'] at hinv'' hm'
        refine ⟨hinv'', lt_of_le_of_lt hm' ?_⟩
        show astMeasure { pq := pr.2, parent := st.parent, g := st.g } <
          astMeasure st
        unfold astMeasure
        have hlen : pr.2.length = st.pq.length - 1 := by
          rw [hrest]
          exact List.length_erase_of_mem hmem
        have hpos : 0 < st.pq.length := List.length_pos.mpr
          (fun hnil => by rw [hnil] at hmem; simp at hmem)
        show pr.2.length + 2 * (gPot st.g + (362880 - st.g.length) * 362881) < _
        omega

theorem runAstar_terminates {start : Board} (hstd : start.Perm std)
    (h : Board → Int) :
    ∀ (n : Nat) (st : AState), Inv start st → astMeasure st < n →
      ∃ r, runAstar h n st = some r := by
  intro n
  induction n with
  | zero => intro st _ hm; exact absurd hm (Nat.not_lt_zero _)
  | succ k ih =>
      intro st hinv hm
      rw [runAstar]
      cases hs : step h st with
      | done r => exact ⟨r, rfl⟩
      | cont st' =>
          obtain ⟨hinv', hlt⟩ := step_cont_preserves hstd h hinv hs
          exact ih st' hinv' (by omega)

theorem step_done_cases {h : Board → Int} {st : AState} {r : Int × List Board}
    (hstep : step h st = StepRes.done r) :
    (popMin st.pq = none ∧ r = (-1, [])) ∨
      (∃ pr, popMin st.pq = some pr ∧ pr.1.2.2 = goal ∧
        r = (((chain st.parent st.parent.length goal).reverse.length : Int),
          (chain st.parent st.parent.length goal).reverse)) := by
  rw [step] at hstep
  cases hpop : popMin st.pq with
  | none =>
      rw [hpop] at hstep
      exact Or.inl ⟨rfl, ((StepRes.done.injEq _ _).mp hstep).symm⟩
  | some pr =>
      rw [hpop] at hstep
      by_cases hg : pr.1.2.2 = goal
      · simp only [hg, if_pos rfl] at hstep
        exact Or.inr ⟨pr, rfl, hg, ((StepRes.done.injEq _ _).mp hstep).symm⟩
      · simp only [if_neg hg] at hstep
        exact absurd hstep (by simp)

theorem runAstar_unsolvable {start : Board} (hstd : start.Perm std)
    (h : Board → Int) (hun : is_solvable start = false) :
    ∀ (n : Nat) (st : AState) (r : Int × List Board), Inv start st →
      runAstar h n st = some r → r = (-1, []) := by
  intro n
  induction n with
  | zero => intro st r _ hr; simp [runAstar] at hr
  | succ k ih =>
      intro st r hinv hr
      rw [runAstar] at hr
      cases hs : step h st with
      | done v =>
          rw [hs] at hr
          have hv : v = r := Option.some_injective _ hr
          rcases step_done_cases hs with ⟨_, hres⟩ | ⟨pr, hpop, hgoal, hres⟩
          · rw [← hv, hres]
          · exfalso
            have hmem : pr.1 ∈ st.pq := popMin_some_mem (show popMin st.pq =
              some (pr.1, pr.2) by rw [hpop])
            have hsome := hinv.pq_g pr.1 hmem
            have hpar := hinv.g_parity pr.1.2.2 hsome
            rw [hgoal] at hpar
            have hgs : is_solvable goal = true := by decide
            rw [hgs, hun] at hpar
            exact absurd hpar (by simp)
      | cont st' =>
          rw [hs] at hr
          obtain ⟨hinv', _⟩ := step_cont_preserves hstd h hinv hs
          exact ih st' r hinv' hr

theorem chain_mem_parent :
    ∀ (m : Nat) (parent : Dict (Option Board)) (c x : Board),
      x ∈ chain parent m c → ∃ p, dlookup parent x = some (some p) := by
  intro m
  induction m with
  | zero => intro parent c x hx; simp [chain] at hx
  | succ k ih =>
      intro parent c x hx
      rw [chain] at hx
      cases hl : dlookup parent c with
      | none => rw [hl] at hx; simp at hx
      | some ob =>
          cases ob with
          | none => rw [hl] at hx; simp at hx
          | some p =>
              rw [hl] at hx
              rcases List.mem_cons.mp hx with h1 | h2
              · exact ⟨p, h1 ▸ hl⟩
              · exact ih parent p x h2

theorem runAstar_success_shape {start : Board} (hstd : start.Perm std)
    (h : Board → Int) :
    ∀ (n : Nat) (st : AState) (m : Int) (path : List Board), Inv start st →
      runAstar h n st = some (m, path) → m ≠ -1 →
      m = (path.length : Int) ∧ (start ≠ goal → path.getLast? = some goal) ∧
        start ∉ path := by
  intro n
  induction n with
  | zero => intro st m path _ hr _; simp [runAstar] at hr
  | succ k ih =>
      intro st m path hinv hr hm
      rw [runAstar] at hr
      cases hs : step h st with
      | done v =>
          rw [hs] at hr
          have hv : v = (m, path) := Option.some_injective _ hr
          rcases step_done_cases hs with ⟨_, hres⟩ | ⟨pr, hpop, hgoal, hres⟩
          · rw [hres] at hv
            exact absurd (congrArg Prod.fst hv).symm hm
          · rw [hres] at hv
            have hm' : ((chain st.parent st.parent.length goal).reverse.length : Int)
                = m := congrArg Prod.fst hv
            have hp' : (chain st.parent st.parent.length goal).reverse = path :=
              congrArg Prod.snd hv
            have hmem : pr.1 ∈ st.pq := popMin_some_mem (show popMin st.pq =
              some (pr.1, pr.2) by rw [hpop])
            have hsomeP : (dlookup st.parent pr.1.2.2).isSome = true :=
              hinv.pq_parent pr.1 hmem
            rw [hgoal] at hsomeP
            refine ⟨by rw [← hm', ← hp'], ?_, ?_⟩
            · intro hne
              obtain ⟨ob, hob⟩ := Option.isSome_iff_exists.mp hsomeP
              cases ob with
              | none => exact absurd (hinv.parent_none goal hob).symm hne
              | some p =>
                  have hlp : 0 < st.parent.length :=
                    dlookup_isSome_length_pos _ _ hsomeP
                  obtain ⟨k', hk'⟩ : ∃ k', st.parent.length = k' + 1 :=
                    ⟨st.parent.length - 1, by omega⟩
                  rw [← hp', hk', List.getLast?_reverse, chain, hob]
                  rfl
            · rw [← hp']
              intro hmem'
              rw [List.mem_reverse] at hmem'
              obtain ⟨p, hp⟩ := chain_mem_parent _ _ _ _ hmem'
              rw [hinv.parent_start] at hp
              simp at hp
      | cont st' =>
          rw [hs] at hr
          obtain ⟨hinv', _⟩ := step_cont_preserves hstd h hinv hs
          exact ih st' m path hinv' hr hm

/-! ## C6: shape of the Solved result -/

/-- C6: whenever `a_star_with_path` returns a non-sentinel result, the
move count equals the path length, the path ends at the goal board (when
the start is not already solved) and never contains the initial board; the
already-solved board returns `(0, [])` for any positive fuel. -/
theorem C6_solved_result_shape :
    (∀ (init : Board) (heuristic : String) (fuel : Nat) (m : Int)
        (path : List Board), init.Perm std →
        a_star_with_path init heuristic fuel = some (m, path) → m ≠ -1 →
        m = (path.length : Int) ∧ (init ≠ goal → path.getLast? = some goal) ∧
          init ∉ path) ∧
    (∀ (heuristic : String) (n : Nat),
        a_star_with_path goal heuristic (n + 1) = some (0, [])) := by
  constructor
  · intro init heuristic fuel m path hperm hrun hm
    exact runAstar_success_shape hperm (HEURISTICS_get heuristic) fuel _ m path
      (initState_inv _ init) hrun hm
  · intro heuristic n
    unfold a_star_with_path
    rw [runAstar]
    have hpop : popMin (initState (HEURISTICS_get heuristic) goal).pq =
        some ((HEURISTICS_get heuristic goal, next (count 0), goal), []) := by
      show popMin [(HEURISTICS_get heuristic goal, next (count 0), goal)] = _
      rw [popMin]
      simp [selectMin]
    have hch : chain (initState (HEURISTICS_get heuristic) goal).parent
        (initState (HEURISTICS_get heuristic) goal).parent.length goal = [] := by
      show chain [(goal, (none : Option Board))] 1 goal = []
      rw [chain, dlookup_pair]
      simp
    have hstep : step (HEURISTICS_get heuristic)
        (initState (HEURISTICS_get heuristic) goal) = StepRes.done (0, []) := by
      rw [step, hpop]
      simp only [if_pos rfl]
      rw [hch]
      simp
    rw [hstep]

theorem C6_witness :
    a_star_with_path [1,2,3,4,5,6,7,0,8] "manhattan" 5 = some (1, [goal]) ∧
      ((1 : Int) = (([goal] : List Board).length : Int) ∧
        (([1,2,3,4,5,6,7,0,8] : Board) ≠ goal →
          ([goal] : List Board).getLast? = some goal) ∧
        ([1,2,3,4,5,6,7,0,8] : Board) ∉ ([goal] : List Board)) :=
  ⟨by decide,
    C6_solved_result_shape.1 [1,2,3,4,5,6,7,0,8] "manhattan" 5 1 [goal]
      (by decide) (by decide) (by decide)⟩

/-! ## C9: termination and the unreachable-goal sentinel -/

/-- C9: on every board that is a permutation of 0–8, `a_star_with_path`
terminates (some fuel completes the loop, so the Python loop, which is the
fuel-free limit, terminates), and when the board is unsolvable the result
is the sentinel `(-1, [])`. -/
theorem C9_terminates_with_sentinel :
    ∀ (init : Board) (heuristic : String), init.Perm std →
      (∃ (fuel : Nat) (r : Int × List Board),
          a_star_with_path init heuristic fuel = some r) ∧
      (is_solvable init = false → ∀ (fuel : Nat) (r : Int × List Board),
          a_star_with_path init heuristic fuel = some r → r = (-1, [])) := by
  intro init heuristic hperm
  constructor
  · obtain ⟨r, hr⟩ := runAstar_terminates hperm (HEURISTICS_get heuristic)
      (astMeasure (initState (HEURISTICS_get heuristic) init) + 1)
      (initState (HEURISTICS_get heuristic) init) (initState_inv _ init)
      (by omega)
    exact ⟨astMeasure (initState (HEURISTICS_get heuristic) init) + 1, r, hr⟩
  · intro hun fuel r hr
    exact runAstar_unsolvable hperm (HEURISTICS_get heuristic) hun fuel _ r
      (initState_inv _ init) hr

theorem C9_witness :
    ([1,2,3,4,5,6,0,8,7] : Board).Perm std ∧
      (∃ (fuel : Nat) (r : Int × List Board),
          a_star_with_path [1,2,3,4,5,6,0,8,7] "misplaced" fuel = some r) ∧
      (is_solvable [1,2,3,4,5,6,0,8,7] = false →
        ∀ (fuel : Nat) (r : Int × List Board),
          a_star_with_path [1,2,3,4,5,6,0,8,7] "misplaced" fuel = some r →
          r = (-1, [])) :=
  ⟨by decide,
    (C9_terminates_with_sentinel [1,2,3,4,5,6,0,8,7] "misplaced" (by decide)).1,
    (C9_terminates_with_sentinel [1,2,3,4,5,6,0,8,7] "misplaced" (by decide)).2⟩

theorem C3_witness :
    (((0 : Int), (0 : Int), goal) : Entry).2.1 = 0 ∧
      ((12 : Int) < 12 ∨ ((12 : Int) = 12 ∧
        listLtInt [3,1,2,0,4,5,6,7,8] [1,0,2,3,4,5,6,7,8] = false)) :=
  ⟨C3_amended_tie_zero_lex_order.1 h_manhattan goal (0, 0, goal) (by decide),
    C3_amended_tie_zero_lex_order.2.2
      [(12, 0, [3,1,2,0,4,5,6,7,8]), (12, 0, [1,0,2,3,4,5,6,7,8])]
      (12, 0, [1,0,2,3,4,5,6,7,8]) [(12, 0, [3,1,2,0,4,5,6,7,8])]
      (by decide) (by decide) (12, 0, [3,1,2,0,4,5,6,7,8]) (by decide)⟩

end App
